import Mathlib

/-! Verification of the `retrieval` repository: a LevelDB-backed inverted
index and a vector-space index. The ordered key-value store is modelled as a
sorted association list from byte sequences to byte sequences; bytes are
`Nat`s (a string's bytes are its characters' code points, which coincides
with Go's UTF-8 encoding on the ASCII data the library manipulates).
Iteration over a key prefix returns the matching entries in ascending
byte-lexicographic order, as LevelDB does. `float64` arithmetic is modelled
by exact rational arithmetic. -/

namespace Retrieval

attribute [local semireducible] Rat.add Rat.mul Rat.inv

/-- Bytes of a Go string, one byte per character code point. -/
def strBytes (s : String) : List Nat := s.toList.map Char.toNat

/-- Inverse direction, used when scans slice document/term names back out of
stored keys (`string(key[i:])` in the source). -/
def bytesToStr (l : List Nat) : String := String.mk (l.map Char.ofNat)

/-- The string has no NUL character: the repository's documented constraint
on terms and filenames (keys use byte 0 as separator). -/
def NullFree (s : String) : Prop := ∀ c ∈ s.toList, Char.toNat c ≠ 0

instance (s : String) : Decidable (NullFree s) := by
  unfold NullFree; infer_instance

/-- Strict byte-lexicographic order on keys, LevelDB's default comparator. -/
def byteLT : List Nat → List Nat → Bool
  | [], [] => false
  | [], _ :: _ => true
  | _ :: _, [] => false
  | a :: as, b :: bs => if a < b then true else if b < a then false else byteLT as bs

/-- The ordered key-value store: an association list kept sorted by
`byteLT` on keys (LevelDB iterates in that order). -/
abbrev Store := List (List Nat × List Nat)

/-- Point lookup (`db.Get` / `db.Has`). -/
def Store.get : Store → List Nat → Option (List Nat)
  | [], _ => none
  | (k0, v0) :: rest, k => if k = k0 then some v0 else Store.get rest k

/-- Point write (`db.Put`): replaces the value at the key, inserting new keys
at their sorted position. -/
def Store.put : Store → List Nat → List Nat → Store
  | [], k, v => [(k, v)]
  | (k0, v0) :: rest, k, v =>
    if byteLT k k0 then (k, v) :: (k0, v0) :: rest
    else if k = k0 then (k, v) :: rest
    else (k0, v0) :: Store.put rest k v

/-- `db.Has`. -/
def Store.has (db : Store) (k : List Nat) : Bool := (db.get k).isSome

/-- Ascending iteration over all keys sharing a byte prefix
(`util.BytesPrefix` + `db.NewIterator`). -/
def Store.scan (db : Store) (p : List Nat) : List (List Nat × List Nat) :=
  db.filter (fun e => p.isPrefixOf e.1)

/-- The store's sortedness invariant: keys strictly ascending in `byteLT`. -/
def Store.Sorted (db : Store) : Prop :=
  db.Pairwise (fun a b => byteLT a.1 b.1 = true)

/-- Big-endian 4-byte encoding of an unsigned 32-bit counter
(`binary.BigEndian.PutUint32`). -/
def encodeUint32 (n : Nat) : List Nat :=
  [n / 2 ^ 24 % 256, n / 2 ^ 16 % 256, n / 2 ^ 8 % 256, n % 256]

/-- Big-endian decoding (`binary.BigEndian.Uint32`); only ever applied to
4-byte values, other shapes decode to 0. -/
def decodeUint32 : List Nat → Nat
  | [a, b, c, d] => ((a * 256 + b) * 256 + c) * 256 + d
  | _ => 0

/-- The whitespace class of Go's regexp `\s`, namely `[\t\n\f\r ]`. -/
def isRegexSpace (c : Char) : Bool :=
  c = ' ' || c = '\t' || c = '\n' || c = '\x0c' || c = '\r'

/-- Splitting a character list on maximal whitespace runs, with the boundary
behaviour of `regexp.Split(input, -1)`: splitting the empty list yields one
empty piece, and leading/trailing runs yield empty boundary pieces. -/
def splitWS : List Char → List (List Char)
  | [] => [[]]
  | c :: cs =>
    if isRegexSpace c then
      match cs with
      | [] => [] :: splitWS cs
      | c2 :: _ => if isRegexSpace c2 then splitWS cs else [] :: splitWS cs
    else
      match splitWS cs with
      | [] => [[c]]
      | t :: ts => (c :: t) :: ts

/-- `tokenize`: split the input on runs of whitespace. -/
def tokenize (input : String) : List String :=
  (splitWS input.toList).map fun l => String.mk l

/-- The reserved separator byte. -/
def nullByte : Nat := 0

/-- `joinWithNullSep token filename = token ‖ 0x00 ‖ filename` as bytes. -/
def joinWithNullSep (token filename : String) : List Nat :=
  strBytes token ++ nullByte :: strBytes filename

/-- `makeKey`, the inverted index's copy of the same key builder. -/
def makeKey (token filename : String) : List Nat :=
  joinWithNullSep token filename

/-- Key prefix of document-term counts: `"ft" ‖ document ‖ 0x00 ‖ term`. -/
def ftPrefix : String := "ft"

/-- Key prefix of corpus term counts: `"df" ‖ term`. -/
def dfPrefix : String := "df"

/-- Key prefix of term-document counts: `"tf" ‖ term ‖ 0x00 ‖ document`. -/
def tfPrefix : String := "tf"

/-- The document-term count key for `(filename, token)`. -/
def ftKey (filename token : String) : List Nat :=
  strBytes ftPrefix ++ joinWithNullSep filename token

/-- The corpus term count key for `token`. -/
def dfKey (token : String) : List Nat :=
  strBytes dfPrefix ++ strBytes token

/-- The term-document count key for `(token, filename)`. -/
def tfKey (token filename : String) : List Nat :=
  strBytes tfPrefix ++ joinWithNullSep token filename

/-- Error conditions of the vector index. The Go source returns
`errors.New` values; we tag the three distinct failure shapes. A Go runtime
panic (out-of-range slice write) is modelled as `indexOutOfRange`. -/
inductive Err where
  | corruptIndex : Err
  | overflow : Err
  | indexOutOfRange : Err
deriving DecidableEq, Repr

/-- The in-memory corpus-frequency cache, Go's `map[string]uint32`
(association list with at most one entry per term). -/
abbrev DFCache := List (String × Nat)

/-- Map lookup with presence (`df, ok := cache[term]`). -/
def dfGet? : DFCache → String → Option Nat
  | [], _ => none
  | (t0, n) :: rest, t => if t = t0 then some n else dfGet? rest t

/-- Map lookup with Go's zero default (`cache[term]`). -/
def dfGetD (c : DFCache) (t : String) : Nat := (dfGet? c t).getD 0

/-- Go's `cache[token]++`: insert 1 for an absent key, otherwise increment
in place (uint32 arithmetic wraps). -/
def dfBump : DFCache → String → DFCache
  | [], t => [(t, 1)]
  | (t0, n) :: rest, t =>
    if t = t0 then (t0, (n + 1) % 2 ^ 32) :: rest else (t0, n) :: dfBump rest t

/-- Go's `cache[term] = n`. -/
def dfSet : DFCache → String → Nat → DFCache
  | [], t, n => [(t, n)]
  | (t0, n0) :: rest, t, n =>
    if t = t0 then (t0, n) :: rest else (t0, n0) :: dfSet rest t n

/-- The vector index handle: the store plus the corpus-frequency cache.
The source also embeds a `sync.Mutex` that no method ever locks; it carries
no semantics and is dropped from the model. -/
structure VectorIndex where
  db : Store
  dfCache : DFCache
deriving DecidableEq

/-- `increment`: create an absent counter at 1; decode a present 4-byte
value, refusing `0xFFFFFFFF` with an Overflow error; treat a present
0-length value as 0 — in which case `binary.BigEndian.PutUint32` then
writes 4 bytes into the 0-byte buffer and panics (`indexOutOfRange`);
refuse any other length as corrupt. On error no write happens. -/
def increment (db : Store) (keyBytes : List Nat) : Except Err Store :=
  match db.get keyBytes with
  | none => .ok (db.put keyBytes (encodeUint32 1))
  | some valueBytes =>
    let value? : Option Nat :=
      if valueBytes.length = 0 then some 0
      else if valueBytes.length = 4 then some (decodeUint32 valueBytes)
      else none
    match value? with
    | none => .error .corruptIndex
    | some value =>
      if value = 2 ^ 32 - 1 then .error .overflow
      else if valueBytes.length < 4 then .error .indexOutOfRange
      else .ok (db.put keyBytes (encodeUint32 (value + 1)))

/-- `increment` applied `n` times to the same key, aborting on error. -/
def incrementN (db : Store) (k : List Nat) : Nat → Except Err Store
  | 0 => .ok db
  | n + 1 =>
    match increment db k with
    | .error e => .error e
    | .ok db' => incrementN db' k n

/-- One iteration of `Add`'s token loop: increment the ft, df and tf
counters for this (filename, token) pair in source order, then bump the
cache entry of the token. -/
def addToken (v : VectorIndex) (filename token : String) : Except Err VectorIndex :=
  match increment v.db (ftKey filename token) with
  | .error e => .error e
  | .ok db1 =>
    match increment db1 (dfKey token) with
    | .error e => .error e
    | .ok db2 =>
      match increment db2 (tfKey token filename) with
      | .error e => .error e
      | .ok db3 => .ok ⟨db3, dfBump v.dfCache token⟩

/-- The token loop of `Add` over a list of (filename, token) pairs, with the
source's early return on error. -/
def processPairs (v : VectorIndex) : List (String × String) → Except Err VectorIndex
  | [] => .ok v
  | p :: ps =>
    match addToken v p.1 p.2 with
    | .error e => .error e
    | .ok v' => processPairs v' ps

/-- `VectorIndex.Add`: tokenize the contents and run the token loop. -/
def VectorIndex.Add (v : VectorIndex) (filename contents : String) : Except Err VectorIndex :=
  processPairs v ((tokenize contents).map fun t => (filename, t))

/-- A sequence of `Add` calls, aborting on the first error. -/
def addAll (v : VectorIndex) : List (String × String) → Except Err VectorIndex
  | [] => .ok v
  | c :: cs =>
    match v.Add c.1 c.2 with
    | .error e => .error e
    | .ok v' => addAll v' cs

/-- The loop body of `loadDFCache` over the scanned `"df"`-prefixed entries:
slice the term out of the key, refuse values that are not 4 bytes long,
decode and store into the cache. -/
def loadDFGo : List (List Nat × List Nat) → DFCache → Except Err DFCache
  | [], acc => .ok acc
  | (k, value) :: es, acc =>
    let term := bytesToStr (k.drop (strBytes dfPrefix).length)
    if value.length = 4 then loadDFGo es (dfSet acc term (decodeUint32 value))
    else .error .corruptIndex

/-- `loadDFCache`: rebuild the corpus-frequency cache by scanning every
persisted corpus term count. -/
def loadDFCache (db : Store) : Except Err DFCache :=
  loadDFGo (db.scan (strBytes dfPrefix)) []

/-- `OpenVectorIndex`. The source assigns `dfCache, err := loadDFCache(db)`
and then returns `nil` as the error unconditionally: a failed cache load is
dropped and the handle is returned with the `nil` map (which reads as
empty). -/
def OpenVectorIndex (db : Store) : Except Err VectorIndex :=
  match loadDFCache db with
  | .ok dfCache => .ok ⟨db, dfCache⟩
  | .error _ => .ok ⟨db, []⟩

/-- The loop body of `documentVector` over the scanned `"ft" ‖ d ‖ 0x00`
entries: slice the term out of the key (dropping the prefix length), refuse
values that are not 4 bytes, and weight the term by `tf / df` with `df`
read from the cache with Go's zero default. The resulting map is modelled
as an association list in scan order. -/
def documentVectorGo (dfc : DFCache) (plen : Nat) :
    List (List Nat × List Nat) → List (String × ℚ) → Except Err (List (String × ℚ))
  | [], acc => .ok acc
  | (k, value) :: es, acc =>
    let term := bytesToStr (k.drop plen)
    if value.length = 4 then
      documentVectorGo dfc plen es
        (acc ++ [(term, (decodeUint32 value : ℚ) / (dfGetD dfc term : ℚ))])
    else .error .corruptIndex

/-- `documentVector`: term weights of one document, from a prefix scan of
its document-term counts. -/
def VectorIndex.documentVector (v : VectorIndex) (filename : String) :
    Except Err (List (String × ℚ)) :=
  let pfx := strBytes ftPrefix ++ strBytes filename ++ [nullByte]
  documentVectorGo v.dfCache pfx.length (v.db.scan pfx) []

/-- `queryVector`: count each distinct query token (a uint32 counter, so
counting wraps at `2^32`), and weight the terms present in the cache by
`tf / df`; terms absent from the cache are omitted. -/
def VectorIndex.queryVector (v : VectorIndex) (query : String) : List (String × ℚ) :=
  (tokenize query).dedup.filterMap fun term =>
    match dfGet? v.dfCache term with
    | some df => some (term, (((tokenize query).count term % 2 ^ 32 : Nat) : ℚ) / (df : ℚ))
    | none => none

/-- Go's `y[term]` on a weight map: lookup with zero default. -/
def lookupWeight : List (String × ℚ) → String → ℚ
  | [], _ => 0
  | (t0, w) :: rest, t => if t = t0 then w else lookupWeight rest t

/-- `dotProduct`: sum over x's entries of the product with y's weight
(absent terms of y contribute 0). -/
def dotProduct (x y : List (String × ℚ)) : ℚ :=
  (x.map fun e => e.2 * lookupWeight y e.1).sum

/-- `magnitude`: the sum of the squares of the vector's weights — no square
root is applied. -/
def magnitude (vector : List (String × ℚ)) : ℚ :=
  (vector.map fun e => e.2 ^ 2).sum

/-- `queryDocumentSimilarity`: `dot(q,d) / (mag(q) * mag(d))`. -/
def VectorIndex.queryDocumentSimilarity (v : VectorIndex) (query filename : String) :
    Except Err ℚ :=
  match v.documentVector filename with
  | .error e => .error e
  | .ok d =>
    .ok (dotProduct (v.queryVector query) d /
      (magnitude (v.queryVector query) * magnitude d))

/-- `uniqueTerms`: the set of distinct query tokens (modelled as a
deduplicated list; Go iterates the set in unspecified order). -/
def uniqueTerms (query : String) : List String := (tokenize query).dedup

/-- The scan loop shared by both Search implementations: locate the first
separator byte in each scanned key (index corruption if none) and slice out
the document name after it. -/
def collectScan : List (List Nat × List Nat) → List String → Except Err (List String)
  | [], acc => .ok acc
  | (k, _) :: es, acc =>
    match k.findIdx? (fun b => b = nullByte) with
    | none => .error .corruptIndex
    | some sep => collectScan es (acc ++ [bytesToStr (k.drop (sep + 1))])

/-- The candidate phase of `VectorIndex.Search`: union, over the distinct
query terms, of the documents found under each term's `"tf"` prefix
(a set in Go, modelled as a deduplicated list). -/
def VectorIndex.searchCandidates (v : VectorIndex) : List String → List String →
    Except Err (List String)
  | [], acc => .ok acc.dedup
  | term :: ts, acc =>
    match collectScan (v.db.scan (strBytes tfPrefix ++ strBytes term ++ [nullByte])) [] with
    | .error e => .error e
    | .ok names => VectorIndex.searchCandidates v ts (acc ++ names)

/-- The scoring phase of `VectorIndex.Search`. -/
def scoreCandidates (v : VectorIndex) (query : String) :
    List String → Except Err (List (String × ℚ))
  | [] => .ok []
  | c :: cs =>
    match v.queryDocumentSimilarity query c with
    | .error e => .error e
    | .ok s =>
      match scoreCandidates v query cs with
      | .error e => .error e
      | .ok rest => .ok ((c, s) :: rest)

/-- Insertion into a descending-by-score list (`sort.Sort(byScore(...))`
with `Less i j ↔ score i > score j`; the Go sort is unstable and ties have
unspecified order, the model fixes one). -/
def insertDesc (p : String × ℚ) : List (String × ℚ) → List (String × ℚ)
  | [] => [p]
  | q :: qs => if q.2 < p.2 then p :: q :: qs else q :: insertDesc p qs

/-- Sort scored candidates by descending score. -/
def sortDesc (l : List (String × ℚ)) : List (String × ℚ) := l.foldr insertDesc []

/-- `VectorIndex.Search`: collect candidates, score each against the query,
sort by descending score, return the names. -/
def VectorIndex.Search (v : VectorIndex) (query : String) : Except Err (List String) :=
  match v.searchCandidates (uniqueTerms query) [] with
  | .error e => .error e
  | .ok cands =>
    match scoreCandidates v query cands with
    | .error e => .error e
    | .ok scored => .ok ((sortDesc scored).map fun e => e.1)

/-- The presence-only inverted index: just the store. -/
structure InvertedIndex where
  db : Store
deriving DecidableEq

/-- `InvertedIndex.Add`: one `token ‖ 0x00 ‖ filename` key per token, with
an empty value. -/
def InvertedIndex.Add (ii : InvertedIndex) (filename contents : String) : InvertedIndex :=
  ⟨(tokenize contents).foldl (fun db token => db.put (makeKey token filename) []) ii.db⟩

/-- `InvertedIndex.Search`: scan `query ‖ 0x00` and return each document
name, in store iteration order. -/
def InvertedIndex.Search (ii : InvertedIndex) (query : String) : Except Err (List String) :=
  collectScan (ii.db.scan (strBytes query ++ [nullByte])) []

/-! Basic store and codec lemmas. -/

instance {ε : Type u} {α : Type v} [DecidableEq ε] [DecidableEq α] :
    DecidableEq (Except ε α) := fun
  | .error e1, .error e2 =>
    if h : e1 = e2 then isTrue (by rw [h])
    else isFalse (fun hc => h (Except.error.inj hc))
  | .error _, .ok _ => isFalse (fun hc => Except.noConfusion hc)
  | .ok _, .error _ => isFalse (fun hc => Except.noConfusion hc)
  | .ok a1, .ok a2 =>
    if h : a1 = a2 then isTrue (by rw [h])
    else isFalse (fun hc => h (Except.ok.inj hc))

theorem decodeUint32_encodeUint32 (n : Nat) (h : n < 2 ^ 32) :
    decodeUint32 (encodeUint32 n) = n := by
  simp only [encodeUint32, decodeUint32]
  omega

theorem length_encodeUint32 (n : Nat) : (encodeUint32 n).length = 4 := rfl

theorem Store.get_put_self (db : Store) (k v : List Nat) :
    (db.put k v).get k = some v := by
  induction db with
  | nil => simp [Store.put, Store.get]
  | cons e rest ih =>
    obtain ⟨k0, v0⟩ := e
    simp only [Store.put]
    by_cases h1 : byteLT k k0
    · simp [h1, Store.get]
    · by_cases h2 : k = k0
      · subst h2; simp [h1, Store.get]
      · simp [h1, h2, Store.get, ih]

theorem Store.get_put_ne (db : Store) (k v k' : List Nat) (h : k' ≠ k) :
    (db.put k v).get k' = db.get k' := by
  induction db with
  | nil => simp [Store.put, Store.get, h]
  | cons e rest ih =>
    obtain ⟨k0, v0⟩ := e
    simp only [Store.put]
    by_cases h1 : byteLT k k0
    · simp [h1, Store.get, h]
    · by_cases h2 : k = k0
      · subst h2; simp [h1, Store.get, h]
      · by_cases h3 : k' = k0
        · simp [h1, h2, h3, Store.get]
        · simp [h1, h2, h3, Store.get, ih]

theorem increment_none (db : Store) (k : List Nat) (h : db.get k = none) :
    increment db k = .ok (db.put k (encodeUint32 1)) := by
  simp [increment, h]

theorem increment_some_enc (db : Store) (k : List Nat) (m : Nat)
    (hm : db.get k = some (encodeUint32 m)) (hlt : m < 2 ^ 32 - 1) :
    increment db k = .ok (db.put k (encodeUint32 (m + 1))) := by
  have hpow : (2 : Nat) ^ 32 - 1 = 4294967295 := by norm_num
  have hm32 : m < 2 ^ 32 := by
    have h : (2 : Nat) ^ 32 = 4294967296 := by norm_num
    omega
  have hne : m ≠ 4294967295 := by omega
  simp [increment, hm, length_encodeUint32,
    decodeUint32_encodeUint32 m hm32, hne]

theorem increment_some_max (db : Store) (k : List Nat)
    (hm : db.get k = some (encodeUint32 (2 ^ 32 - 1))) :
    increment db k = .error Err.overflow := by
  have h1 : decodeUint32 (encodeUint32 4294967295) = 4294967295 :=
    decodeUint32_encodeUint32 4294967295 (by norm_num)
  norm_num at hm
  simp [increment, hm, length_encodeUint32, h1]

theorem incrementN_from (db : Store) (k : List Nat) (m j : Nat)
    (hm : db.get k = some (encodeUint32 m)) (hm1 : 1 ≤ m)
    (hj : m + j ≤ 2 ^ 32 - 1) :
    ∃ db', incrementN db k j = .ok db' ∧
      db'.get k = some (encodeUint32 (m + j)) := by
  induction j generalizing db m with
  | zero => exact ⟨db, rfl, by simpa using hm⟩
  | succ j ih =>
    have hlt : m < 2 ^ 32 - 1 := by omega
    have hstep := increment_some_enc db k m hm hlt
    have hget := Store.get_put_self db k (encodeUint32 (m + 1))
    obtain ⟨db', h1, h2⟩ :=
      ih (db.put k (encodeUint32 (m + 1))) (m + 1) hget (by omega) (by omega)
    refine ⟨db', ?_, ?_⟩
    · simp [incrementN, hstep, h1]
    · have he : m + 1 + j = m + (j + 1) := by omega
      rw [he] at h2; exact h2

/-! Order lemmas for the byte-lexicographic comparator. -/

theorem byteLT_irrefl (a : List Nat) : byteLT a a = false := by
  induction a with
  | nil => rfl
  | cons x xs ih => simp [byteLT, ih]

theorem byteLT_cons_iff {x y : Nat} {xs ys : List Nat} :
    byteLT (x :: xs) (y :: ys) = true ↔
      x < y ∨ (x = y ∧ byteLT xs ys = true) := by
  simp only [byteLT]
  by_cases h1 : x < y
  · simp [h1]
  · by_cases h2 : y < x
    · simp [h1, h2]
      omega
    · have hxy : x = y := by omega
      simp [h1, h2, hxy]

theorem byteLT_trans {a b c : List Nat} (h1 : byteLT a b = true)
    (h2 : byteLT b c = true) : byteLT a c = true := by
  induction a generalizing b c with
  | nil =>
    cases b with
    | nil => exact absurd h1 (by simp [byteLT])
    | cons y ys =>
      cases c with
      | nil => exact absurd h2 (by simp [byteLT])
      | cons z zs => simp [byteLT]
  | cons x xs ih =>
    cases b with
    | nil => exact absurd h1 (by simp [byteLT])
    | cons y ys =>
      cases c with
      | nil => exact absurd h2 (by simp [byteLT])
      | cons z zs =>
        rw [byteLT_cons_iff] at h1 h2 ⊢
        rcases h1 with h1 | ⟨rfl, h1⟩
        · rcases h2 with h2 | ⟨rfl, h2⟩
          · exact Or.inl (by omega)
          · exact Or.inl h1
        · rcases h2 with h2 | ⟨rfl, h2⟩
          · exact Or.inl h2
          · exact Or.inr ⟨rfl, ih h1 h2⟩

theorem byteLT_asymm {a b : List Nat} (h : byteLT a b = true) :
    byteLT b a = false := by
  rcases hb : byteLT b a with _ | _
  · rfl
  · have hc := byteLT_trans h hb
    rw [byteLT_irrefl] at hc
    exact absurd hc (by simp)

theorem byteLT_total {a b : List Nat} (h1 : byteLT a b = false)
    (h2 : byteLT b a = false) : a = b := by
  induction a generalizing b with
  | nil =>
    cases b with
    | nil => rfl
    | cons y ys => simp [byteLT] at h1
  | cons x xs ih =>
    cases b with
    | nil => simp [byteLT] at h2
    | cons y ys =>
      have n1 : ¬(x < y ∨ (x = y ∧ byteLT xs ys = true)) := by
        rw [← byteLT_cons_iff, h1]; simp
      have n2 : ¬(y < x ∨ (y = x ∧ byteLT ys xs = true)) := by
        rw [← byteLT_cons_iff, h2]; simp
      push_neg at n1 n2
      have hxy : x = y := by omega
      subst hxy
      have e1 : byteLT xs ys = false := by
        rcases hb : byteLT xs ys with _ | _
        · rfl
        · exact absurd hb (n1.2 rfl)
      have e2 : byteLT ys xs = false := by
        rcases hb : byteLT ys xs with _ | _
        · rfl
        · exact absurd hb (n2.2 rfl)
      rw [ih e1 e2]

/-! Sortedness of the store under `put`, and idempotence of re-putting a
value already present. -/

theorem Store.mem_put {db : Store} {k v : List Nat} {e : List Nat × List Nat}
    (h : e ∈ db.put k v) : e = (k, v) ∨ e ∈ db := by
  induction db with
  | nil => simpa [Store.put] using h
  | cons e0 rest ih =>
    obtain ⟨k0, v0⟩ := e0
    simp only [Store.put] at h
    split at h
    · simp only [List.mem_cons] at h ⊢
      tauto
    · split at h
      · simp only [List.mem_cons] at h ⊢
        tauto
      · simp only [List.mem_cons] at h ⊢
        rcases h with h | h
        · tauto
        · rcases ih h with h' | h' <;> tauto

theorem bool_ne_true {b : Bool} (h : ¬b = true) : b = false := by
  rcases b with _ | _
  · rfl
  · exact absurd rfl h

theorem Store.sorted_put (db : Store) (k v : List Nat) (h : db.Sorted) :
    (db.put k v).Sorted := by
  induction db with
  | nil => simp [Store.put, Store.Sorted]
  | cons e0 rest ih =>
    obtain ⟨k0, v0⟩ := e0
    rw [Store.Sorted, List.pairwise_cons] at h
    obtain ⟨h0, hrest⟩ := h
    simp only [Store.put]
    by_cases h1 : byteLT k k0 = true
    · simp only [h1, if_true]
      rw [Store.Sorted, List.pairwise_cons]
      constructor
      · intro e he
        rcases List.mem_cons.mp he with rfl | he
        · exact h1
        · exact byteLT_trans h1 (h0 e he)
      · rw [List.pairwise_cons]
        exact ⟨h0, hrest⟩
    · have hb1 : byteLT k k0 = false := bool_ne_true h1
      by_cases h2 : k = k0
      · subst h2
        simp only [hb1, Bool.false_eq_true, if_false, if_true]
        rw [Store.Sorted, List.pairwise_cons]
        exact ⟨h0, hrest⟩
      · simp only [hb1, Bool.false_eq_true, if_false, h2]
        rw [Store.Sorted, List.pairwise_cons]
        refine ⟨?_, ih hrest⟩
        intro e he
        rcases Store.mem_put he with rfl | he
        · rcases hb : byteLT k0 k with _ | _
          · exact absurd (byteLT_total hb1 hb) h2
          · rfl
        · exact h0 e he

theorem Store.mem_of_get {db : Store} {k v : List Nat}
    (h : db.get k = some v) : (k, v) ∈ db := by
  induction db with
  | nil => simp [Store.get] at h
  | cons e0 rest ih =>
    obtain ⟨k0, v0⟩ := e0
    simp only [Store.get] at h
    by_cases h1 : k = k0
    · simp only [h1, if_true] at h
      simp [h1, ← Option.some.inj h]
    · simp only [h1, if_false] at h
      exact List.mem_cons_of_mem _ (ih h)

theorem Store.put_eq_of_get (db : Store) (k v : List Nat) (hs : db.Sorted)
    (h : db.get k = some v) : db.put k v = db := by
  induction db with
  | nil => simp [Store.get] at h
  | cons e0 rest ih =>
    obtain ⟨k0, v0⟩ := e0
    simp only [Store.Sorted, List.pairwise_cons] at hs
    obtain ⟨h0, hrest⟩ := hs
    simp only [Store.get] at h
    simp only [Store.put]
    by_cases h1 : k = k0
    · subst h1
      simp only [if_true] at h
      simp [byteLT_irrefl, ← Option.some.inj h]
    · simp only [h1, if_false] at h
      have hmem : (k, v) ∈ rest := Store.mem_of_get h
      have hlt : byteLT k0 k = true := h0 (k, v) hmem
      have hnlt : byteLT k k0 = false := byteLT_asymm hlt
      simp [hnlt, h1, ih hrest h]

theorem get_foldl_put (toks : List String) (filename : String) (db : Store)
    (k : List Nat) :
    Store.get (toks.foldl (fun st tok => st.put (makeKey tok filename) []) db) k =
      if ∃ tok ∈ toks, makeKey tok filename = k then some [] else db.get k := by
  induction toks generalizing db with
  | nil => simp
  | cons t ts ih =>
    simp only [List.foldl_cons]
    rw [ih]
    by_cases hk : ∃ tok ∈ ts, makeKey tok filename = k
    · have hcons : ∃ tok ∈ t :: ts, makeKey tok filename = k := by
        obtain ⟨tok, htok, he⟩ := hk
        exact ⟨tok, List.mem_cons_of_mem _ htok, he⟩
      rw [if_pos hk, if_pos hcons]
    · rw [if_neg hk]
      by_cases he : makeKey t filename = k
      · have h1 : ∃ tok ∈ t :: ts, makeKey tok filename = k :=
          ⟨t, List.mem_cons_self _ _, he⟩
        rw [if_pos h1, ← he]
        exact Store.get_put_self db _ _
      · have h1 : ¬∃ tok ∈ t :: ts, makeKey tok filename = k := by
          intro hc
          obtain ⟨tok, htok, hke⟩ := hc
          rcases List.mem_cons.mp htok with rfl | htok
          · exact he hke
          · exact hk ⟨tok, htok, hke⟩
        rw [if_neg h1]
        exact Store.get_put_ne db _ _ _ (fun hc => he hc.symm)

theorem sorted_foldl_put (toks : List String) (filename : String) (db : Store)
    (hs : db.Sorted) :
    (toks.foldl (fun st tok => st.put (makeKey tok filename) []) db).Sorted := by
  induction toks generalizing db with
  | nil => exact hs
  | cons t ts ih => exact ih _ (Store.sorted_put _ _ _ hs)

theorem foldl_put_id (toks : List String) (filename : String) (db : Store)
    (hs : db.Sorted)
    (h : ∀ tok ∈ toks, db.get (makeKey tok filename) = some []) :
    toks.foldl (fun st tok => st.put (makeKey tok filename) []) db = db := by
  induction toks with
  | nil => rfl
  | cons t ts ih =>
    have h1 : db.put (makeKey t filename) [] = db :=
      Store.put_eq_of_get db _ _ hs (h t (List.mem_cons_self _ _))
    simp only [List.foldl_cons, h1]
    exact ih fun tok htok => h tok (List.mem_cons_of_mem _ htok)

/-- C6: for every key absent from the store, `increment` applied n times
(1 ≤ n ≤ 2^32 − 1) leaves the value n stored at that key, encoded as 4
bytes big-endian; and `increment` on any store holding the value 2^32 − 1
at the key returns the Overflow error (performing no write). -/
theorem c6_increment_counts (db : Store) (k : List Nat) (n : Nat)
    (h1 : 1 ≤ n) (h2 : n ≤ 2 ^ 32 - 1) (h0 : db.get k = none) :
    (∃ db', incrementN db k n = .ok db' ∧
        db'.get k = some (encodeUint32 n)) ∧
      ∀ db2 : Store, db2.get k = some (encodeUint32 (2 ^ 32 - 1)) →
        increment db2 k = .error Err.overflow := by
  constructor
  · obtain ⟨j, rfl⟩ : ∃ j, n = j + 1 := ⟨n - 1, by omega⟩
    have hstep := increment_none db k h0
    have hget := Store.get_put_self db k (encodeUint32 1)
    obtain ⟨db', ha, hb⟩ :=
      incrementN_from (db.put k (encodeUint32 1)) k 1 j hget (le_refl 1)
        (by omega)
    refine ⟨db', ?_, ?_⟩
    · simp [incrementN, hstep, ha]
    · have he : 1 + j = j + 1 := by omega
      rw [he] at hb; exact hb
  · intro db2 hm
    exact increment_some_max db2 k hm

/-- C6 witness: three increments of the fresh key `[5]` in the empty store
yield the stored value `[0, 0, 0, 3]`. -/
theorem c6_witness :
    1 ≤ 3 ∧ 3 ≤ 2 ^ 32 - 1 ∧ Store.get [] [5] = none ∧
      ((∃ db', incrementN [] [5] 3 = .ok db' ∧
          db'.get [5] = some (encodeUint32 3)) ∧
        ∀ db2 : Store, db2.get [5] = some (encodeUint32 (2 ^ 32 - 1)) →
          increment db2 [5] = .error Err.overflow) :=
  ⟨by norm_num, by norm_num, rfl,
    c6_increment_counts [] [5] 3 (by norm_num) (by norm_num) rfl⟩

/-- C10: for the presence-only inverted index, `Add` is idempotent on the
store state: on any (sorted) store, adding the same (filename, contents)
twice in succession leaves the store exactly as adding it once. -/
theorem c10_inverted_add_idempotent (ii : InvertedIndex) (hs : ii.db.Sorted)
    (filename contents : String) :
    (ii.Add filename contents).Add filename contents =
      ii.Add filename contents := by
  obtain ⟨db⟩ := ii
  simp only [InvertedIndex.Add, InvertedIndex.mk.injEq]
  apply foldl_put_id
  · exact sorted_foldl_put _ _ _ hs
  · intro tok htok
    rw [get_foldl_put]
    exact if_pos ⟨tok, htok, rfl⟩

/-- C10 witness at the empty store with `Add "f" "a b"`. -/
theorem c10_witness :
    Store.Sorted [] ∧
      ((InvertedIndex.mk []).Add "f" "a b").Add "f" "a b" =
        (InvertedIndex.mk []).Add "f" "a b" :=
  ⟨List.Pairwise.nil,
    c10_inverted_add_idempotent ⟨[]⟩ List.Pairwise.nil "f" "a b"⟩

/-- C1: starting from a freshly opened empty vector index, after
`Add("a", "hello hello hello hello world")`, `Add("b", "hello tiger tiger")`
and `Add("c", "rumic tiger")` in that order, `Search("tiger")` succeeds and
returns exactly `["b", "c"]` in that order. -/
theorem c1_scenarioA_search_tiger :
    (do
      let v0 ← OpenVectorIndex []
      let v1 ← v0.Add "a" "hello hello hello hello world"
      let v2 ← v1.Add "b" "hello tiger tiger"
      let v3 ← v2.Add "c" "rumic tiger"
      v3.Search "tiger") = Except.ok ["b", "c"] := by decide

/-- C9: starting from a freshly opened empty presence-only index, after
`Add("a", "hello world")`, `Add("b", "hello tiger")` and
`Add("c", "rumic world")`, `Search("hello")` returns exactly `["a", "b"]`,
`Search("world")` exactly `["a", "c"]` and `Search("tiger")` exactly
`["b"]`, each in store iteration order. -/
theorem c9_scenarioB_presence_search :
    (let ii := (((InvertedIndex.mk []).Add "a" "hello world").Add
        "b" "hello tiger").Add "c" "rumic world"
     ii.Search "hello" = .ok ["a", "b"] ∧
       ii.Search "world" = .ok ["a", "c"] ∧
       ii.Search "tiger" = .ok ["b"]) := by decide

/-- C7 counterexample: at the concrete store holding the single key `[9]`
with the 0-length value, `increment [9]` does not fail with the
CorruptIndex condition: the source's `len(valueBytes) == 0` branch decodes
the value as 0 and the subsequent `PutUint32` into the 0-byte buffer
panics (modelled as `indexOutOfRange`). -/
theorem c7_counterexample :
    increment [([9], [])] [9] ≠ .error Err.corruptIndex := by decide

/-- C7 as amended: a present value whose length is neither 4 nor 0 makes
`increment` fail with the CorruptIndex condition and no write; a present
value of length 0 is instead decoded as 0 and the call dies with an
out-of-range panic while re-encoding, also without writing. -/
theorem c7_amended_increment_bad_length (db : Store) (k v : List Nat)
    (h : db.get k = some v) (h4 : v.length ≠ 4) :
    (v.length ≠ 0 → increment db k = .error Err.corruptIndex) ∧
    (v.length = 0 → increment db k = .error Err.indexOutOfRange) := by
  constructor
  · intro h0
    simp [increment, h, h0, h4]
  · intro h0
    have hv : v = [] := List.eq_nil_of_length_eq_zero h0
    subst hv
    have hz : (0 : Nat) ≠ 2 ^ 32 - 1 := by norm_num
    simp [increment, h, hz]

/-- C7 amended witness at the concrete store `{[9] ↦ [1, 2, 3]}`. -/
theorem c7_amended_witness :
    Store.get [([9], [1, 2, 3])] [9] = some [1, 2, 3] ∧
      ([1, 2, 3] : List Nat).length ≠ 4 ∧
      increment [([9], [1, 2, 3])] [9] = .error Err.corruptIndex :=
  ⟨by decide, by decide,
    (c7_amended_increment_bad_length [([9], [1, 2, 3])] [9] [1, 2, 3]
      (by decide) (by decide)).1 (by decide)⟩

/-- C8 (code bug): on a store whose corpus-count key `"df" ‖ "x"` holds the
malformed 2-byte value `[1, 2]`, `loadDFCache` does report the CorruptIndex
condition, but `OpenVectorIndex` drops the error (`dfCache, err :=
loadDFCache(db)` is followed by `return ..., nil`) and hands back an index
whose cache is the nil map instead of aborting. -/
theorem c8_open_ignores_corrupt_df :
    loadDFCache [([100, 102, 120], [1, 2])] = .error Err.corruptIndex ∧
      OpenVectorIndex [([100, 102, 120], [1, 2])] =
        .ok ⟨[([100, 102, 120], [1, 2])], []⟩ := by decide

/-! Counting the (filename, token) pairs a sequence of `Add` calls feeds to
the counter updates, and relating keys back to the names they encode. -/

/-- The (filename, token) pairs processed, in order, by a sequence of `Add`
calls. -/
def pairsOf (calls : List (String × String)) : List (String × String) :=
  calls.flatMap fun c => (tokenize c.2).map fun t => (c.1, t)

/-- Occurrences of the pair (d, t) among the processed pairs: the value the
ft/tf counters of (d, t) should hold. -/
def ftCnt (ps : List (String × String)) (d t : String) : Nat := ps.count (d, t)

/-- Occurrences of the token t among the processed pairs: the value the df
counter of t should hold. -/
def dfCnt (ps : List (String × String)) (t : String) : Nat :=
  (ps.map Prod.snd).count t

/-- The stored 4-byte value of a counter whose logical count is n: absent
when the counter was never incremented. -/
def encCount (n : Nat) : Option (List Nat) :=
  if n = 0 then none else some (encodeUint32 n)

/-- The cache entry of a term whose corpus count is n: absent when the term
was never indexed. -/
def optCount (n : Nat) : Option Nat := if n = 0 then none else some n

/-- Total occurrences of term t across the tokenized texts passed to `Add`
for document d. -/
def occCount (calls : List (String × String)) (d t : String) : Nat :=
  ((calls.filter fun c => c.1 = d).map fun c => (tokenize c.2).count t).sum

theorem map_ofNat_comp_toNat (l : List Char) :
    l.map (Char.ofNat ∘ Char.toNat) = l := by
  induction l with
  | nil => rfl
  | cons c cs ih => simp [Function.comp, Char.ofNat_toNat, ih]

theorem strBytes_inj {s t : String} (h : strBytes s = strBytes t) : s = t := by
  have h2 := congrArg (List.map Char.ofNat) h
  rw [strBytes, strBytes, List.map_map, List.map_map, map_ofNat_comp_toNat,
    map_ofNat_comp_toNat] at h2
  exact congrArg String.mk h2

theorem bytesToStr_strBytes (s : String) : bytesToStr (strBytes s) = s := by
  rw [bytesToStr, strBytes, List.map_map, map_ofNat_comp_toNat]
  rfl

theorem nullFree_not_mem {s : String} (h : NullFree s) : 0 ∉ strBytes s := by
  intro hc
  simp only [strBytes, List.mem_map] at hc
  obtain ⟨c, hc1, hc2⟩ := hc
  exact h c hc1 hc2

theorem append_sep_inj {a1 b1 a2 b2 : List Nat} (ha1 : 0 ∉ a1) (ha2 : 0 ∉ a2)
    (h : a1 ++ 0 :: b1 = a2 ++ 0 :: b2) : a1 = a2 ∧ b1 = b2 := by
  induction a1 generalizing a2 with
  | nil =>
    cases a2 with
    | nil => simpa using h
    | cons y ys =>
      simp only [List.nil_append, List.cons_append, List.cons.injEq] at h
      exact absurd (h.1 ▸ List.mem_cons_self y ys) ha2
  | cons x xs ih =>
    cases a2 with
    | nil =>
      simp only [List.nil_append, List.cons_append, List.cons.injEq] at h
      exact absurd (h.1 ▸ List.mem_cons_self x xs) ha1
    | cons y ys =>
      simp only [List.cons_append, List.cons.injEq] at h
      have ha1' : 0 ∉ xs := fun hc => ha1 (List.mem_cons_of_mem _ hc)
      have ha2' : 0 ∉ ys := fun hc => ha2 (List.mem_cons_of_mem _ hc)
      obtain ⟨he, hrest⟩ := ih ha1' ha2' h.2
      exact ⟨by rw [h.1, he], hrest⟩

theorem sep_prefix_iff {a b c : List Nat} (ha : 0 ∉ a) (hb : 0 ∉ b) :
    (a ++ [0]) <+: (b ++ 0 :: c) ↔ a = b := by
  constructor
  · intro h
    obtain ⟨tail, htail⟩ := h
    have : a ++ 0 :: tail = b ++ 0 :: c := by
      simpa [List.append_assoc] using htail
    exact (append_sep_inj ha hb this).1
  · rintro rfl
    refine ⟨c, ?_⟩
    simp [List.append_assoc]

theorem ftKey_cons (d t : String) :
    ftKey d t = 102 :: 116 :: (strBytes d ++ 0 :: strBytes t) := rfl

theorem dfKey_cons (t : String) : dfKey t = 100 :: 102 :: strBytes t := rfl

theorem tfKey_cons (t d : String) :
    tfKey t d = 116 :: 102 :: (strBytes t ++ 0 :: strBytes d) := rfl

theorem ftKey_ne_dfKey (d t t' : String) : ftKey d t ≠ dfKey t' := by
  simp [ftKey_cons, dfKey_cons]

theorem ftKey_ne_tfKey (d t t' d' : String) : ftKey d t ≠ tfKey t' d' := by
  simp [ftKey_cons, tfKey_cons]

theorem dfKey_ne_tfKey (t t' d' : String) : dfKey t ≠ tfKey t' d' := by
  simp [dfKey_cons, tfKey_cons]

theorem ftKey_inj {d t d' t' : String} (hd : NullFree d) (hd' : NullFree d')
    (h : ftKey d t = ftKey d' t') : d = d' ∧ t = t' := by
  rw [ftKey_cons, ftKey_cons] at h
  simp only [List.cons.injEq, true_and] at h
  obtain ⟨h1, h2⟩ :=
    append_sep_inj (nullFree_not_mem hd) (nullFree_not_mem hd') h
  exact ⟨strBytes_inj h1, strBytes_inj h2⟩

theorem tfKey_inj {t d t' d' : String} (ht : NullFree t) (ht' : NullFree t')
    (h : tfKey t d = tfKey t' d') : t = t' ∧ d = d' := by
  rw [tfKey_cons, tfKey_cons] at h
  simp only [List.cons.injEq, true_and] at h
  obtain ⟨h1, h2⟩ :=
    append_sep_inj (nullFree_not_mem ht) (nullFree_not_mem ht') h
  exact ⟨strBytes_inj h1, strBytes_inj h2⟩

theorem dfKey_inj {t t' : String} (h : dfKey t = dfKey t') : t = t' := by
  rw [dfKey_cons, dfKey_cons] at h
  simp only [List.cons.injEq, true_and] at h
  exact strBytes_inj h

/-! Cache-map lemmas. -/

theorem dfGet?_dfBump_self (c : DFCache) (t : String) :
    dfGet? (dfBump c t) t = some ((dfGetD c t + 1) % 2 ^ 32) := by
  induction c with
  | nil => simp [dfBump, dfGet?, dfGetD]
  | cons e rest ih =>
    obtain ⟨t0, n⟩ := e
    by_cases h : t = t0
    · subst h; simp [dfBump, dfGet?, dfGetD]
    · simp [dfBump, dfGet?, h, ih, dfGetD]

theorem dfGet?_dfBump_ne (c : DFCache) (t t' : String) (h : t' ≠ t) :
    dfGet? (dfBump c t) t' = dfGet? c t' := by
  induction c with
  | nil => simp [dfBump, dfGet?, h]
  | cons e rest ih =>
    obtain ⟨t0, n⟩ := e
    by_cases h0 : t = t0
    · subst h0; simp [dfBump, dfGet?, h]
    · by_cases h1 : t' = t0
      · subst h1; simp [dfBump, dfGet?, h0]
      · simp [dfBump, dfGet?, h0, h1, ih]

theorem dfGet?_dfSet_self (c : DFCache) (t : String) (n : Nat) :
    dfGet? (dfSet c t n) t = some n := by
  induction c with
  | nil => simp [dfSet, dfGet?]
  | cons e rest ih =>
    obtain ⟨t0, n0⟩ := e
    by_cases h : t = t0
    · subst h; simp [dfSet, dfGet?]
    · simp [dfSet, dfGet?, h, ih]

theorem dfGet?_dfSet_ne (c : DFCache) (t : String) (n : Nat) (t' : String)
    (h : t' ≠ t) : dfGet? (dfSet c t n) t' = dfGet? c t' := by
  induction c with
  | nil => simp [dfSet, dfGet?, h]
  | cons e rest ih =>
    obtain ⟨t0, n0⟩ := e
    by_cases h0 : t = t0
    · subst h0; simp [dfSet, dfGet?, h]
    · by_cases h1 : t' = t0
      · subst h1; simp [dfSet, dfGet?, h0]
      · simp [dfSet, dfGet?, h0, h1, ih]

theorem getD_optCount (n : Nat) : (optCount n).getD 0 = n := by
  by_cases h : n = 0 <;> simp [optCount, h]

theorem increment_encCount (db : Store) (k : List Nat) (n : Nat)
    (h : db.get k = encCount n) (hn : n < 2 ^ 32 - 1) :
    increment db k = .ok (db.put k (encodeUint32 (n + 1))) := by
  by_cases h0 : n = 0
  · subst h0
    rw [encCount, if_pos rfl] at h
    exact increment_none db k h
  · rw [encCount, if_neg h0] at h
    exact increment_some_enc db k n h hn

theorem increment_encCount_max (db : Store) (k : List Nat)
    (h : db.get k = encCount (2 ^ 32 - 1)) :
    increment db k = .error Err.overflow := by
  rw [encCount, if_neg (by norm_num)] at h
  exact increment_some_max db k h

/-! Count bookkeeping over the processed-pair list. -/

theorem ftCnt_append_pair (ps : List (String × String)) (f t d' t' : String) :
    ftCnt (ps ++ [(f, t)]) d' t' =
      ftCnt ps d' t' + (if f = d' ∧ t = t' then 1 else 0) := by
  have hsing : List.count (d', t') [(f, t)] =
      if f = d' ∧ t = t' then 1 else 0 := by
    rw [List.count_cons, List.count_nil]
    by_cases hc : f = d' ∧ t = t'
    · obtain ⟨rfl, rfl⟩ := hc
      simp
    · rw [if_neg hc, if_neg, Nat.zero_add]
      intro hbeq
      rw [beq_iff_eq] at hbeq
      exact hc ⟨congrArg Prod.fst hbeq, congrArg Prod.snd hbeq⟩
  rw [ftCnt, ftCnt, List.count_append, hsing]

theorem dfCnt_append_pair (ps : List (String × String)) (f t t' : String) :
    dfCnt (ps ++ [(f, t)]) t' = dfCnt ps t' + (if t = t' then 1 else 0) := by
  simp [dfCnt, List.map_append, List.count_append, List.count_singleton']

theorem ftCnt_le_dfCnt (ps : List (String × String)) (d t : String) :
    ftCnt ps d t ≤ dfCnt ps t := by
  induction ps with
  | nil => simp [ftCnt, dfCnt]
  | cons p ps ih =>
    rcases p with ⟨pd, pt⟩
    simp only [ftCnt, dfCnt, List.map_cons, List.count_cons, beq_iff_eq,
      Prod.mk.injEq] at *
    by_cases h2 : pt = t
    · by_cases h1 : pd = d
      · simp [h1, h2]; omega
      · simp [h1, h2]; omega
    · have : ¬(pd = d ∧ pt = t) := fun hc => h2 hc.2
      simp [this, h2]; omega

/-- The reachability invariant of the vector index: after processing the
(filename, token) pair list `ps` from a fresh index, the store is sorted,
holds exactly the three key families for NUL-free names, each counter holds
the encoded pair/token count, and the cache mirrors the df counters. -/
structure VIInv (v : VectorIndex) (ps : List (String × String)) : Prop where
  sorted : v.db.Sorted
  keys : ∀ e ∈ v.db,
    (∃ d t, NullFree d ∧ NullFree t ∧ e.1 = ftKey d t) ∨
      (∃ t, NullFree t ∧ e.1 = dfKey t) ∨
      (∃ t d, NullFree t ∧ NullFree d ∧ e.1 = tfKey t d)
  ft : ∀ d t, NullFree d → NullFree t →
    v.db.get (ftKey d t) = encCount (ftCnt ps d t)
  tfd : ∀ d t, NullFree d → NullFree t →
    v.db.get (tfKey t d) = encCount (ftCnt ps d t)
  df : ∀ t, NullFree t → v.db.get (dfKey t) = encCount (dfCnt ps t)
  cache : ∀ t, dfGet? v.dfCache t = optCount (dfCnt ps t)
  dfLt : ∀ t, dfCnt ps t < 2 ^ 32

theorem viinv_addToken {v : VectorIndex} {ps : List (String × String)}
    {f t : String} {v' : VectorIndex} (hf : NullFree f) (ht : NullFree t)
    (hinv : VIInv v ps) (h : addToken v f t = .ok v') :
    VIInv v' (ps ++ [(f, t)]) := by
  have hn1le : ftCnt ps f t ≤ dfCnt ps t := ftCnt_le_dfCnt ps f t
  have hn2lt : dfCnt ps t < 2 ^ 32 := hinv.dfLt t
  have hft := hinv.ft f t hf ht
  have hdf := hinv.df t ht
  have htf := hinv.tfd f t hf ht
  by_cases hmax1 : ftCnt ps f t = 2 ^ 32 - 1
  · have hbad : increment v.db (ftKey f t) = .error Err.overflow := by
      rw [hmax1] at hft; exact increment_encCount_max _ _ hft
    simp [addToken, hbad] at h
  have hlt1 : ftCnt ps f t < 2 ^ 32 - 1 := by omega
  have hstep1 := increment_encCount _ _ _ hft hlt1
  have hdf1 : (v.db.put (ftKey f t) (encodeUint32 (ftCnt ps f t + 1))).get
      (dfKey t) = encCount (dfCnt ps t) := by
    rw [Store.get_put_ne _ _ _ _ (Ne.symm (ftKey_ne_dfKey f t t))]
    exact hdf
  by_cases hmax2 : dfCnt ps t = 2 ^ 32 - 1
  · have hbad : increment (v.db.put (ftKey f t)
        (encodeUint32 (ftCnt ps f t + 1))) (dfKey t) = .error Err.overflow := by
      rw [hmax2] at hdf1; exact increment_encCount_max _ _ hdf1
    simp [addToken, hstep1, hbad] at h
  have hlt2 : dfCnt ps t < 2 ^ 32 - 1 := by omega
  have hstep2 := increment_encCount _ _ _ hdf1 hlt2
  have htf2 : ((v.db.put (ftKey f t) (encodeUint32 (ftCnt ps f t + 1))).put
      (dfKey t) (encodeUint32 (dfCnt ps t + 1))).get (tfKey t f) =
      encCount (ftCnt ps f t) := by
    rw [Store.get_put_ne _ _ _ _ (Ne.symm (dfKey_ne_tfKey t t f)),
      Store.get_put_ne _ _ _ _ (Ne.symm (ftKey_ne_tfKey f t t f))]
    exact htf
  have hstep3 := increment_encCount _ _ _ htf2 hlt1
  have hv' : v' = ⟨((v.db.put (ftKey f t) (encodeUint32 (ftCnt ps f t + 1))).put
      (dfKey t) (encodeUint32 (dfCnt ps t + 1))).put (tfKey t f)
      (encodeUint32 (ftCnt ps f t + 1)), dfBump v.dfCache t⟩ := by
    simp only [addToken, hstep1, hstep2, hstep3] at h
    exact (Except.ok.inj h).symm
  subst hv'
  constructor
  · exact Store.sorted_put _ _ _
      (Store.sorted_put _ _ _ (Store.sorted_put _ _ _ hinv.sorted))
  · intro e he
    rcases Store.mem_put he with rfl | he
    · exact Or.inr (Or.inr ⟨t, f, ht, hf, rfl⟩)
    rcases Store.mem_put he with rfl | he
    · exact Or.inr (Or.inl ⟨t, ht, rfl⟩)
    rcases Store.mem_put he with rfl | he
    · exact Or.inl ⟨f, t, hf, ht, rfl⟩
    · exact hinv.keys e he
  · intro d' t' hd' ht'
    rw [ftCnt_append_pair]
    by_cases hdt : f = d' ∧ t = t'
    · obtain ⟨rfl, rfl⟩ := hdt
      rw [if_pos ⟨rfl, rfl⟩,
        Store.get_put_ne _ _ _ _ (ftKey_ne_tfKey f t t f),
        Store.get_put_ne _ _ _ _ (ftKey_ne_dfKey f t t),
        Store.get_put_self, encCount, if_neg (by omega)]
    · rw [if_neg hdt, Nat.add_zero,
        Store.get_put_ne _ _ _ _ (ftKey_ne_tfKey d' t' t f),
        Store.get_put_ne _ _ _ _ (ftKey_ne_dfKey d' t' t),
        Store.get_put_ne _ _ _ _
          (fun hc => hdt ⟨((ftKey_inj hd' hf hc).1).symm,
            ((ftKey_inj hd' hf hc).2).symm⟩)]
      exact hinv.ft d' t' hd' ht'
  · intro d' t' hd' ht'
    rw [ftCnt_append_pair]
    by_cases hdt : f = d' ∧ t = t'
    · obtain ⟨rfl, rfl⟩ := hdt
      rw [if_pos ⟨rfl, rfl⟩, Store.get_put_self, encCount, if_neg (by omega)]
    · rw [if_neg hdt, Nat.add_zero,
        Store.get_put_ne _ _ _ _
          (fun hc => hdt ⟨((tfKey_inj ht' ht hc).2).symm,
            ((tfKey_inj ht' ht hc).1).symm⟩),
        Store.get_put_ne _ _ _ _ (Ne.symm (dfKey_ne_tfKey t t' d')),
        Store.get_put_ne _ _ _ _ (Ne.symm (ftKey_ne_tfKey f t t' d'))]
      exact hinv.tfd d' t' hd' ht'
  · intro t' ht'
    rw [dfCnt_append_pair]
    by_cases htt : t = t'
    · subst htt
      rw [if_pos rfl,
        Store.get_put_ne _ _ _ _ (dfKey_ne_tfKey t t f),
        Store.get_put_self, encCount, if_neg (by omega)]
    · rw [if_neg htt, Nat.add_zero,
        Store.get_put_ne _ _ _ _ (dfKey_ne_tfKey t' t f),
        Store.get_put_ne _ _ _ _ (fun hc => htt (dfKey_inj hc).symm),
        Store.get_put_ne _ _ _ _ (Ne.symm (ftKey_ne_dfKey f t t'))]
      exact hinv.df t' ht'
  · intro t'
    rw [dfCnt_append_pair]
    by_cases htt : t = t'
    · subst htt
      rw [if_pos rfl, dfGet?_dfBump_self, dfGetD, hinv.cache t,
        getD_optCount, Nat.mod_eq_of_lt (by omega), optCount,
        if_neg (by omega)]
    · rw [if_neg htt, Nat.add_zero, dfGet?_dfBump_ne _ _ _ (Ne.symm htt)]
      exact hinv.cache t'
  · intro t'
    rw [dfCnt_append_pair]
    by_cases htt : t = t'
    · subst htt
      rw [if_pos rfl]
      omega
    · rw [if_neg htt, Nat.add_zero]
      exact hinv.dfLt t'

theorem viinv_processPairs {qs : List (String × String)} {v : VectorIndex}
    {ps : List (String × String)} {v' : VectorIndex}
    (hqs : ∀ p ∈ qs, NullFree p.1 ∧ NullFree p.2)
    (hinv : VIInv v ps) (h : processPairs v qs = .ok v') :
    VIInv v' (ps ++ qs) := by
  induction qs generalizing v ps with
  | nil =>
    simp only [processPairs] at h
    obtain rfl := Except.ok.inj h
    simpa using hinv
  | cons q qs ih =>
    simp only [processPairs] at h
    rcases ha : addToken v q.1 q.2 with e | v1
    · simp [ha] at h
    · simp only [ha] at h
      have h1 := viinv_addToken (hqs q (List.mem_cons_self q qs)).1
        (hqs q (List.mem_cons_self q qs)).2 hinv ha
      have h2 := ih (fun p hp => hqs p (List.mem_cons_of_mem _ hp)) h1 h
      simpa [List.append_assoc] using h2

theorem viinv_empty : VIInv ⟨[], []⟩ [] := by
  constructor
  · exact List.Pairwise.nil
  · intro e he; cases he
  · intro d t _ _; simp [Store.get, ftCnt, encCount]
  · intro d t _ _; simp [Store.get, ftCnt, encCount]
  · intro t _; simp [Store.get, dfCnt, encCount]
  · intro t; simp [dfGet?, dfCnt, optCount]
  · intro t; simp [dfCnt]

theorem processPairs_append (v : VectorIndex) (xs ys : List (String × String)) :
    processPairs v (xs ++ ys) =
      match processPairs v xs with
      | .error e => .error e
      | .ok v1 => processPairs v1 ys := by
  induction xs generalizing v with
  | nil => rfl
  | cons x xs ih =>
    rcases ha : addToken v x.1 x.2 with e | v1
    · simp only [List.cons_append, processPairs, ha]
    · simp only [List.cons_append, processPairs, ha]
      exact ih v1

theorem pairsOf_cons (c : String × String) (cs : List (String × String)) :
    pairsOf (c :: cs) =
      ((tokenize c.2).map fun t => (c.1, t)) ++ pairsOf cs := by
  simp [pairsOf]

theorem addAll_eq_processPairs (v : VectorIndex)
    (calls : List (String × String)) :
    addAll v calls = processPairs v (pairsOf calls) := by
  induction calls generalizing v with
  | nil => rfl
  | cons c cs ih =>
    rw [pairsOf_cons, processPairs_append]
    simp only [addAll, VectorIndex.Add]
    rcases ha : processPairs v ((tokenize c.2).map fun t => (c.1, t))
        with e | v1
    · simp only [ha]
    · simp only [ha]
      exact ih v1

theorem splitWS_cons_nil {x : Char} (hx : isRegexSpace x = true) :
    splitWS [x] = [[], []] := by
  simp [splitWS, hx]

theorem splitWS_space_space {x c2 : Char} {cs2 : List Char}
    (hx : isRegexSpace x = true) (hc2 : isRegexSpace c2 = true) :
    splitWS (x :: c2 :: cs2) = splitWS (c2 :: cs2) := by
  conv_lhs => rw [splitWS]
  rw [if_pos hx, if_pos hc2]

theorem splitWS_space_nonspace {x c2 : Char} {cs2 : List Char}
    (hx : isRegexSpace x = true) (hc2 : isRegexSpace c2 = false) :
    splitWS (x :: c2 :: cs2) = [] :: splitWS (c2 :: cs2) := by
  conv_lhs => rw [splitWS]
  rw [if_pos hx, hc2]
  rfl

theorem splitWS_nonspace_nil {x : Char} {xs : List Char}
    (hx : isRegexSpace x = false) (hs : splitWS xs = []) :
    splitWS (x :: xs) = [[x]] := by
  cases xs with
  | nil => simp [splitWS] at hs
  | cons c2 cs2 =>
    conv_lhs => rw [splitWS]
    rw [hx, hs]
    rfl

theorem splitWS_nonspace_cons {x : Char} {xs t0 : List Char}
    {ts : List (List Char)} (hx : isRegexSpace x = false)
    (hs : splitWS xs = t0 :: ts) :
    splitWS (x :: xs) = (x :: t0) :: ts := by
  cases xs with
  | nil =>
    simp only [splitWS] at hs
    obtain ⟨rfl, rfl⟩ := List.cons.inj hs
    simp [splitWS, hx]
  | cons c2 cs2 =>
    conv_lhs => rw [splitWS]
    rw [hx, hs]
    rfl

theorem splitWS_chars {l tok : List Char} (h : tok ∈ splitWS l) :
    ∀ c ∈ tok, c ∈ l := by
  induction l generalizing tok with
  | nil =>
    simp only [splitWS, List.mem_singleton] at h
    subst h
    intro c hc
    cases hc
  | cons x xs ih =>
    intro c hc
    by_cases hsp : isRegexSpace x = true
    · cases xs with
      | nil =>
        rw [splitWS_cons_nil hsp] at h
        simp only [List.mem_cons, List.not_mem_nil, or_false] at h
        rcases h with rfl | rfl <;> cases hc
      | cons c2 cs2 =>
        by_cases hsp2 : isRegexSpace c2 = true
        · rw [splitWS_space_space hsp hsp2] at h
          exact List.mem_cons_of_mem _ (ih h c hc)
        · rw [splitWS_space_nonspace hsp (bool_ne_true hsp2)] at h
          rcases List.mem_cons.mp h with rfl | h
          · cases hc
          · exact List.mem_cons_of_mem _ (ih h c hc)
    · have hx : isRegexSpace x = false := bool_ne_true hsp
      rcases hs : splitWS xs with _ | ⟨t0, ts⟩
      · rw [splitWS_nonspace_nil hx hs] at h
        simp only [List.mem_singleton] at h
        subst h
        simp only [List.mem_singleton] at hc
        subst hc
        exact List.mem_cons_self _ _
      · rw [splitWS_nonspace_cons hx hs] at h
        rcases List.mem_cons.mp h with rfl | h
        · rcases List.mem_cons.mp hc with rfl | hc
          · exact List.mem_cons_self _ _
          · have ht0 : t0 ∈ splitWS xs := by rw [hs]; exact List.mem_cons_self _ _
            exact List.mem_cons_of_mem _ (ih ht0 c hc)
        · have htok : tok ∈ splitWS xs := by
            rw [hs]; exact List.mem_cons_of_mem _ h
          exact List.mem_cons_of_mem _ (ih htok c hc)

theorem tokenize_nullFree {s : String} (hs : NullFree s) :
    ∀ tok ∈ tokenize s, NullFree tok := by
  intro tok htok
  simp only [tokenize, List.mem_map] at htok
  obtain ⟨l, hl, rfl⟩ := htok
  intro c hc
  exact hs c (splitWS_chars hl c hc)

theorem viinv_addAll {calls : List (String × String)} {v : VectorIndex}
    (hnf : ∀ c ∈ calls, NullFree c.1 ∧ NullFree c.2)
    (h : addAll ⟨[], []⟩ calls = .ok v) : VIInv v (pairsOf calls) := by
  rw [addAll_eq_processPairs] at h
  have hq : ∀ p ∈ pairsOf calls, NullFree p.1 ∧ NullFree p.2 := by
    intro p hp
    simp only [pairsOf, List.mem_flatMap, List.mem_map] at hp
    obtain ⟨c, hc, tok, htok, rfl⟩ := hp
    exact ⟨(hnf c hc).1, tokenize_nullFree (hnf c hc).2 tok htok⟩
  simpa using viinv_processPairs hq viinv_empty h

/-! Relating the pair counts to the per-call occurrence counts of the
claims. -/

theorem count_pair_map (c1 d t : String) (toks : List String) :
    ((toks.map fun tok => (c1, tok)).count (d, t)) =
      if c1 = d then toks.count t else 0 := by
  induction toks with
  | nil => simp
  | cons x xs ih =>
    by_cases h1 : c1 = d
    · subst h1
      rw [List.map_cons, List.count_cons, ih, if_pos rfl, if_pos rfl,
        List.count_cons]
      congr 1
      by_cases h2 : x = t
      · subst h2
        rw [if_pos (by rw [beq_iff_eq]), if_pos (by rw [beq_iff_eq])]
      · rw [if_neg, if_neg]
        · intro hbeq; rw [beq_iff_eq] at hbeq; exact h2 hbeq
        · intro hbeq; rw [beq_iff_eq] at hbeq
          exact h2 (congrArg Prod.snd hbeq)
    · rw [List.map_cons, List.count_cons, ih, if_neg h1, if_neg h1, if_neg]
      intro hbeq; rw [beq_iff_eq] at hbeq
      exact h1 (congrArg Prod.fst hbeq)

theorem occCount_cons (c : String × String) (cs : List (String × String))
    (d t : String) :
    occCount (c :: cs) d t =
      (if c.1 = d then (tokenize c.2).count t else 0) + occCount cs d t := by
  by_cases h : c.1 = d
  · simp [occCount, List.filter_cons, h]
  · simp [occCount, List.filter_cons, h]

theorem ftCnt_pairsOf (calls : List (String × String)) (d t : String) :
    ftCnt (pairsOf calls) d t = occCount calls d t := by
  induction calls with
  | nil => simp [pairsOf, ftCnt, occCount]
  | cons c cs ih =>
    rw [occCount_cons, ← ih]
    simp only [pairsOf, List.flatMap_cons]
    rw [ftCnt, List.count_append, count_pair_map]
    rfl

theorem ftCnt_cons (p : String × String) (ps : List (String × String))
    (d t : String) :
    ftCnt (p :: ps) d t =
      ftCnt ps d t + (if p.1 = d ∧ p.2 = t then 1 else 0) := by
  rw [ftCnt, ftCnt, List.count_cons]
  congr 1
  by_cases hc : p.1 = d ∧ p.2 = t
  · rw [if_pos, if_pos hc]
    rw [beq_iff_eq]
    obtain ⟨h1, h2⟩ := hc
    obtain ⟨pa, pb⟩ := p
    simp only at h1 h2
    rw [h1, h2]
  · rw [if_neg, if_neg hc]
    intro hbeq; rw [beq_iff_eq] at hbeq
    exact hc ⟨congrArg Prod.fst hbeq, congrArg Prod.snd hbeq⟩

theorem dfCnt_cons (p : String × String) (ps : List (String × String))
    (t : String) :
    dfCnt (p :: ps) t = dfCnt ps t + (if p.2 = t then 1 else 0) := by
  rw [dfCnt, dfCnt, List.map_cons, List.count_cons]
  congr 1
  by_cases hc : p.2 = t
  · rw [if_pos (by rw [beq_iff_eq]; exact hc), if_pos hc]
  · rw [if_neg, if_neg hc]
    intro hbeq; rw [beq_iff_eq] at hbeq
    exact hc hbeq

theorem sum_map_add (ds : List String) (a b : String → Nat) :
    (ds.map fun d => a d + b d).sum = (ds.map a).sum + (ds.map b).sum := by
  induction ds with
  | nil => rfl
  | cons d ds ih =>
    simp only [List.map_cons, List.sum_cons, ih]
    omega

theorem sum_map_indicator :
    ∀ (ds : List String) (x : String), ds.Nodup → x ∈ ds →
      (ds.map fun d => if x = d then 1 else 0).sum = 1 := by
  intro ds
  induction ds with
  | nil => intro x _ hx; cases hx
  | cons d ds ih =>
    intro x hnd hx
    rw [List.map_cons, List.sum_cons]
    rcases List.mem_cons.mp hx with rfl | hx'
    · rw [if_pos rfl]
      have hnotin : x ∉ ds := (List.nodup_cons.mp hnd).1
      have hzero : (ds.map fun d => if x = d then 1 else 0).sum = 0 := by
        apply List.sum_eq_zero
        intro y hy
        simp only [List.mem_map] at hy
        obtain ⟨d', hd', rfl⟩ := hy
        rw [if_neg (fun hc => hnotin (by rw [hc]; exact hd'))]
      omega
    · have hne : x ≠ d := fun hc =>
        (List.nodup_cons.mp hnd).1 (by rw [← hc]; exact hx')
      rw [if_neg hne, ih x (List.nodup_cons.mp hnd).2 hx']

theorem sum_ftCnt (ps : List (String × String)) (t : String) :
    ∀ ds : List String, ds.Nodup → (∀ p ∈ ps, p.1 ∈ ds) →
      (ds.map fun d => ftCnt ps d t).sum = dfCnt ps t := by
  induction ps with
  | nil =>
    intro ds _ _
    rw [dfCnt]
    simp [ftCnt]
  | cons p ps ih =>
    intro ds hnd hcov
    have hcov' : ∀ q ∈ ps, q.1 ∈ ds :=
      fun q hq => hcov q (List.mem_cons_of_mem _ hq)
    have hmem : p.1 ∈ ds := hcov p (List.mem_cons_self _ _)
    rw [List.map_congr_left (fun d _ => ftCnt_cons p ps d t),
      sum_map_add, ih ds hnd hcov', dfCnt_cons]
    congr 1
    by_cases hc : p.2 = t
    · have hpt : ∀ d ∈ ds, (if p.1 = d ∧ p.2 = t then 1 else 0) =
          (if p.1 = d then 1 else 0) := by
        intro d _
        by_cases h1 : p.1 = d
        · rw [if_pos ⟨h1, hc⟩, if_pos h1]
        · rw [if_neg (fun h => h1 h.1), if_neg h1]
      rw [List.map_congr_left hpt, sum_map_indicator ds p.1 hnd hmem,
        if_pos hc]
    · have hpt : ∀ d ∈ ds, (if p.1 = d ∧ p.2 = t then 1 else 0) = 0 := by
        intro d _
        rw [if_neg (fun h => hc h.2)]
      rw [List.map_congr_left hpt, if_neg hc]
      simp

theorem pairsOf_fst_mem {calls : List (String × String)}
    {p : String × String} (h : p ∈ pairsOf calls) :
    p.1 ∈ calls.map Prod.fst := by
  simp only [pairsOf, List.mem_flatMap, List.mem_map] at h
  obtain ⟨c, hc, tok, htok, rfl⟩ := h
  exact List.mem_map.mpr ⟨c, hc, rfl⟩

/-! Characterizing prefix scans of a reachable store. -/

theorem Store.get_of_mem {db : Store} (hs : db.Sorted) {k v : List Nat}
    (h : (k, v) ∈ db) : db.get k = some v := by
  induction db with
  | nil => cases h
  | cons e0 rest ih =>
    obtain ⟨k0, v0⟩ := e0
    rw [Store.Sorted, List.pairwise_cons] at hs
    rcases List.mem_cons.mp h with he | he
    · obtain ⟨rfl, rfl⟩ := Prod.mk.inj he
      simp [Store.get]
    · have hlt : byteLT k0 k = true := hs.1 (k, v) he
      have hne : k ≠ k0 := by
        intro hc
        rw [hc, byteLT_irrefl] at hlt
        exact absurd hlt (by simp)
      simp only [Store.get, if_neg hne]
      exact ih hs.2 he

theorem sorted_nodup_keys {db : Store} (hs : db.Sorted) :
    (db.map Prod.fst).Nodup := by
  rw [Store.Sorted] at hs
  rw [List.Nodup, List.pairwise_map]
  refine hs.imp ?_
  intro a b hab hc
  rw [hc, byteLT_irrefl] at hab
  exact absurd hab (by simp)

theorem scan_keys_nodup {db : Store} (hs : db.Sorted) (p : List Nat) :
    ((db.scan p).map Prod.fst).Nodup := by
  have h1 : List.Sublist (db.scan p) db := List.filter_sublist _
  exact (sorted_nodup_keys hs).sublist (List.Sublist.map _ h1)

theorem loadDFGo_ok (es : List (List Nat × List Nat)) (acc : DFCache)
    (h : ∀ e ∈ es, e.2.length = 4) :
    loadDFGo es acc = .ok (es.foldl (fun a e =>
      dfSet a (bytesToStr (e.1.drop (strBytes dfPrefix).length))
        (decodeUint32 e.2)) acc) := by
  induction es generalizing acc with
  | nil => rfl
  | cons e es ih =>
    obtain ⟨k, val⟩ := e
    have h4 : val.length = 4 := h (k, val) (List.mem_cons_self _ _)
    simp only [loadDFGo, h4, List.foldl_cons, if_pos]
    exact ih _ (fun e he => h e (List.mem_cons_of_mem _ he))

theorem dfGet?_foldSet_not_mem (es : List (List Nat × List Nat))
    (acc : DFCache) (t : String)
    (h : ∀ e ∈ es, bytesToStr (e.1.drop (strBytes dfPrefix).length) ≠ t) :
    dfGet? (es.foldl (fun a e =>
      dfSet a (bytesToStr (e.1.drop (strBytes dfPrefix).length))
        (decodeUint32 e.2)) acc) t = dfGet? acc t := by
  induction es generalizing acc with
  | nil => rfl
  | cons e es ih =>
    rw [List.foldl_cons, ih _ (fun e' he' => h e' (List.mem_cons_of_mem _ he')),
      dfGet?_dfSet_ne _ _ _ _ (Ne.symm (h e (List.mem_cons_self _ _)))]

theorem dfGet?_foldSet_mem (t : String) (n : Nat) (hn : n < 2 ^ 32) :
    ∀ (es : List (List Nat × List Nat)) (acc : DFCache),
      (dfKey t, encodeUint32 n) ∈ es →
      (es.map Prod.fst).Nodup →
      (∀ e ∈ es,
        bytesToStr (e.1.drop (strBytes dfPrefix).length) = t →
          e.1 = dfKey t) →
      dfGet? (es.foldl (fun a e =>
        dfSet a (bytesToStr (e.1.drop (strBytes dfPrefix).length))
          (decodeUint32 e.2)) acc) t = some n := by
  intro es
  induction es with
  | nil => intro acc hmem _ _; cases hmem
  | cons e es ih =>
    intro acc hmem hnd hterm
    have hnd' : (e.1 :: es.map Prod.fst).Nodup := by
      rw [← List.map_cons]; exact hnd
    have hhead : e.1 ∉ es.map Prod.fst := (List.nodup_cons.mp hnd').1
    have htail : (es.map Prod.fst).Nodup := (List.nodup_cons.mp hnd').2
    rw [List.foldl_cons]
    rcases List.mem_cons.mp hmem with he | he
    · obtain rfl := he.symm
      have hterm_e : bytesToStr ((dfKey t, encodeUint32 n).1.drop
          (strBytes dfPrefix).length) = t := by
        show bytesToStr ((dfKey t).drop (strBytes dfPrefix).length) = t
        rw [dfKey, List.drop_left, bytesToStr_strBytes]
      rw [hterm_e, dfGet?_foldSet_not_mem, decodeUint32_encodeUint32 n hn,
        dfGet?_dfSet_self]
      intro e' he' hc
      have h1 : e'.1 = dfKey t := hterm e' (List.mem_cons_of_mem _ he') hc
      exact hhead (h1 ▸ List.mem_map.mpr ⟨e', he', rfl⟩)
    · have hne : bytesToStr (e.1.drop (strBytes dfPrefix).length) ≠ t := by
        intro hc
        have h1 : e.1 = dfKey t := hterm e (List.mem_cons_self _ _) hc
        have h2 : dfKey t ∈ es.map Prod.fst := List.mem_map.mpr ⟨_, he, rfl⟩
        rw [h1] at hhead
        exact hhead h2
      exact ih _ he htail
        (fun e' he' hc => hterm e' (List.mem_cons_of_mem _ he') hc)

theorem df_scan_char {v : VectorIndex} {ps : List (String × String)}
    (hinv : VIInv v ps) :
    ∀ e ∈ v.db.scan (strBytes dfPrefix), ∃ t, NullFree t ∧
      e.1 = dfKey t ∧ e.2 = encodeUint32 (dfCnt ps t) ∧ dfCnt ps t ≠ 0 := by
  intro e he
  rw [Store.scan, List.mem_filter] at he
  obtain ⟨hmem, hpre⟩ := he
  have hdfp : strBytes dfPrefix = [100, 102] := rfl
  rcases hinv.keys e hmem with ⟨d, t, hd, ht, hk⟩ | ⟨t, ht, hk⟩ |
    ⟨t, d, ht, hd, hk⟩
  · exfalso
    rw [hk, ftKey_cons, hdfp] at hpre
    simp [List.isPrefixOf] at hpre
  · obtain ⟨k, val⟩ := e
    simp only at hk
    subst hk
    have hget : v.db.get (dfKey t) = some val :=
      Store.get_of_mem hinv.sorted hmem
    rw [hinv.df t ht, encCount] at hget
    by_cases h0 : dfCnt ps t = 0
    · rw [if_pos h0] at hget; cases hget
    · rw [if_neg h0] at hget
      exact ⟨t, ht, rfl, (Option.some.inj hget).symm, h0⟩
  · exfalso
    rw [hk, tfKey_cons, hdfp] at hpre
    simp [List.isPrefixOf] at hpre

theorem df_scan_mem {v : VectorIndex} {ps : List (String × String)}
    (hinv : VIInv v ps) {t : String} (ht : NullFree t)
    (h0 : dfCnt ps t ≠ 0) :
    (dfKey t, encodeUint32 (dfCnt ps t)) ∈ v.db.scan (strBytes dfPrefix) := by
  rw [Store.scan, List.mem_filter]
  constructor
  · apply Store.mem_of_get
    rw [hinv.df t ht, encCount, if_neg h0]
  · rw [List.isPrefixOf_iff_prefix]
    exact List.prefix_append _ _

/-- C3: for every document d and term t, after any sequence of successful
`Add` calls from a fresh index, the persisted Document-Term Count FT(d,t)
equals the persisted Term-Document Count TF(t,d), and both hold exactly the
total number of occurrences of t across the tokenized texts passed to
`Add` for document d (absent when that number is 0, as a 4-byte big-endian
value otherwise). -/
theorem c3_ft_eq_tf_eq_occurrences (calls : List (String × String))
    (v : VectorIndex) (hnf : ∀ c ∈ calls, NullFree c.1 ∧ NullFree c.2)
    (h : addAll ⟨[], []⟩ calls = .ok v) (d t : String)
    (hd : NullFree d) (ht : NullFree t) :
    v.db.get (ftKey d t) = v.db.get (tfKey t d) ∧
      v.db.get (ftKey d t) = encCount (occCount calls d t) := by
  have hinv := viinv_addAll hnf h
  have h1 := hinv.ft d t hd ht
  have h2 := hinv.tfd d t hd ht
  constructor
  · rw [h1, h2]
  · rw [h1, ftCnt_pairsOf]

/-- The concrete index reached from the empty store by `Add "a" "x"`, used
by the invariant witnesses. -/
def sampleVI : VectorIndex :=
  ⟨[([100, 102, 120], [0, 0, 0, 1]), ([102, 116, 97, 0, 120], [0, 0, 0, 1]),
    ([116, 102, 120, 0, 97], [0, 0, 0, 1])], [("x", 1)]⟩

/-- C3 witness at the single call `Add "a" "x"`. -/
theorem c3_witness :
    (∀ c ∈ ([("a", "x")] : List (String × String)),
      NullFree c.1 ∧ NullFree c.2) ∧
    addAll ⟨[], []⟩ [("a", "x")] = .ok sampleVI ∧
    NullFree "a" ∧ NullFree "x" ∧
    (sampleVI.db.get (ftKey "a" "x") = sampleVI.db.get (tfKey "x" "a") ∧
      sampleVI.db.get (ftKey "a" "x") =
        encCount (occCount [("a", "x")] "a" "x")) :=
  ⟨by decide, by decide, by decide, by decide,
    c3_ft_eq_tf_eq_occurrences [("a", "x")] sampleVI (by decide) (by decide)
      "a" "x" (by decide) (by decide)⟩

/-- C4: for every term t, after any sequence of successful `Add` calls from
a fresh index, the persisted Corpus Term Count of t holds the sum, over the
documents passed to `Add`, of FT(d,t) (absent when the sum is 0). -/
theorem c4_df_is_sum_of_ft (calls : List (String × String)) (v : VectorIndex)
    (hnf : ∀ c ∈ calls, NullFree c.1 ∧ NullFree c.2)
    (h : addAll ⟨[], []⟩ calls = .ok v) (t : String) (ht : NullFree t) :
    v.db.get (dfKey t) =
      encCount ((((calls.map Prod.fst).dedup).map
        fun d => occCount calls d t).sum) := by
  have hinv := viinv_addAll hnf h
  rw [hinv.df t ht]
  congr 1
  rw [← sum_ftCnt (pairsOf calls) t ((calls.map Prod.fst).dedup)
    (List.nodup_dedup _) (fun p hp => List.mem_dedup.mpr (pairsOf_fst_mem hp))]
  apply congrArg
  apply List.map_congr_left
  intro d _
  rw [ftCnt_pairsOf]

/-- C4 witness at the single call `Add "a" "x"`. -/
theorem c4_witness :
    (∀ c ∈ ([("a", "x")] : List (String × String)),
      NullFree c.1 ∧ NullFree c.2) ∧
    addAll ⟨[], []⟩ [("a", "x")] = .ok sampleVI ∧ NullFree "x" ∧
    sampleVI.db.get (dfKey "x") =
      encCount (((([("a", "x")].map Prod.fst).dedup).map
        fun d => occCount [("a", "x")] d "x").sum) :=
  ⟨by decide, by decide, by decide,
    c4_df_is_sum_of_ft [("a", "x")] sampleVI (by decide) (by decide) "x"
      (by decide)⟩

/-- C5: for every term t, after any sequence of successful `Add` calls from
a fresh index, the in-memory cache entry for t equals the decoded persisted
Corpus Term Count for t (both absent together); and reloading the cache
from the store — which is what reopening the index does — succeeds and
yields a cache with the same property. -/
theorem c5_cache_mirrors_df (calls : List (String × String)) (v : VectorIndex)
    (hnf : ∀ c ∈ calls, NullFree c.1 ∧ NullFree c.2)
    (h : addAll ⟨[], []⟩ calls = .ok v) :
    (∀ t, NullFree t →
      dfGet? v.dfCache t = Option.map decodeUint32 (v.db.get (dfKey t))) ∧
    ∃ c, loadDFCache v.db = .ok c ∧ OpenVectorIndex v.db = .ok ⟨v.db, c⟩ ∧
      ∀ t, NullFree t →
        dfGet? c t = Option.map decodeUint32 (v.db.get (dfKey t)) := by
  have hinv := viinv_addAll hnf h
  have hval : ∀ t, NullFree t →
      Option.map decodeUint32 (v.db.get (dfKey t)) =
        optCount (dfCnt (pairsOf calls) t) := by
    intro t ht
    rw [hinv.df t ht, encCount, optCount]
    by_cases h0 : dfCnt (pairsOf calls) t = 0
    · rw [if_pos h0, if_pos h0]; rfl
    · rw [if_neg h0, if_neg h0]
      simp only [Option.map_some']
      rw [decodeUint32_encodeUint32 _ (hinv.dfLt t)]
  constructor
  · intro t ht
    rw [hval t ht]
    exact hinv.cache t
  · have hlen : ∀ e ∈ v.db.scan (strBytes dfPrefix), e.2.length = 4 := by
      intro e he
      obtain ⟨t, _, _, hv2, _⟩ := df_scan_char hinv e he
      rw [hv2]
      exact length_encodeUint32 _
    have hok := loadDFGo_ok (v.db.scan (strBytes dfPrefix)) [] hlen
    refine ⟨_, hok, ?_, ?_⟩
    · simp only [OpenVectorIndex, loadDFCache, hok]
    · intro t ht
      rw [hval t ht]
      by_cases h0 : dfCnt (pairsOf calls) t = 0
      · rw [optCount, if_pos h0]
        apply dfGet?_foldSet_not_mem
        intro e he hc
        obtain ⟨t', _, hk, _, hpos⟩ := df_scan_char hinv e he
        rw [hk, dfKey, List.drop_left, bytesToStr_strBytes] at hc
        subst hc
        exact hpos h0
      · rw [optCount, if_neg h0]
        apply dfGet?_foldSet_mem t (dfCnt (pairsOf calls) t) (hinv.dfLt t)
        · exact df_scan_mem hinv ht h0
        · exact scan_keys_nodup hinv.sorted _
        · intro e he hc
          obtain ⟨t', _, hk, _, _⟩ := df_scan_char hinv e he
          rw [hk, dfKey, List.drop_left, bytesToStr_strBytes] at hc
          rw [hk, hc]

/-- C5 witness at the single call `Add "a" "x"`. -/
theorem c5_witness :
    (∀ c ∈ ([("a", "x")] : List (String × String)),
      NullFree c.1 ∧ NullFree c.2) ∧
    addAll ⟨[], []⟩ [("a", "x")] = .ok sampleVI ∧
    ((∀ t, NullFree t → dfGet? sampleVI.dfCache t =
        Option.map decodeUint32 (sampleVI.db.get (dfKey t))) ∧
      ∃ c, loadDFCache sampleVI.db = .ok c ∧
        OpenVectorIndex sampleVI.db = .ok ⟨sampleVI.db, c⟩ ∧
        ∀ t, NullFree t →
          dfGet? c t = Option.map decodeUint32 (sampleVI.db.get (dfKey t))) :=
  ⟨by decide, by decide,
    c5_cache_mirrors_df [("a", "x")] sampleVI (by decide) (by decide)⟩

/-! C2: the scoring formula, stated from the claim's words over the
indexing history, and proved equal to what `queryDocumentSimilarity`
computes on the reachable index. -/

/-- Spec-side: total occurrences of term t across the whole indexed corpus
(the Corpus Term Count). -/
def corpusCount (calls : List (String × String)) (t : String) : Nat :=
  (calls.map fun c => (tokenize c.2).count t).sum

/-- Spec-side: the query-vector weight of a term — its query occurrence
count divided by its corpus count. -/
def specQueryWeight (calls : List (String × String)) (q t : String) : ℚ :=
  ((tokenize q).count t : ℚ) / (corpusCount calls t : ℚ)

/-- Spec-side: the document-vector weight of a term — FT(d,t) divided by
its corpus count. -/
def specDocWeight (calls : List (String × String)) (d t : String) : ℚ :=
  (occCount calls d t : ℚ) / (corpusCount calls t : ℚ)

/-- Spec-side: the terms of the query vector — the distinct query tokens,
with terms absent from the cache (those never indexed, i.e. with zero
corpus count) omitted. -/
def specQueryTerms (calls : List (String × String)) (q : String) :
    List String :=
  (tokenize q).dedup.filter fun t => corpusCount calls t ≠ 0

/-- All tokens fed to `Add` for document d. -/
def docTokens (calls : List (String × String)) (d : String) : List String :=
  (calls.filter fun c => c.1 = d).flatMap fun c => tokenize c.2

/-- Spec-side: the terms of the document vector — the terms with a nonzero
Document-Term Count for d. -/
def specDocTerms (calls : List (String × String)) (d : String) :
    List String :=
  (docTokens calls d).dedup.filter fun t => occCount calls d t ≠ 0

/-- Spec-side: the terms shared by the query vector and the document
vector. -/
def specSharedTerms (calls : List (String × String)) (q d : String) :
    List String :=
  (specQueryTerms calls q).filter fun t => occCount calls d t ≠ 0

/-- Spec-side: dot sums the products of the two weights over shared
terms. -/
def specDot (calls : List (String × String)) (q d : String) : ℚ :=
  ((specSharedTerms calls q d).map fun t =>
    specQueryWeight calls q t * specDocWeight calls d t).sum

/-- Spec-side: mag of the query vector — the sum of the squares of its
weights, no square root applied. -/
def specMagQuery (calls : List (String × String)) (q : String) : ℚ :=
  ((specQueryTerms calls q).map fun t => specQueryWeight calls q t ^ 2).sum

/-- Spec-side: mag of the document vector. -/
def specMagDoc (calls : List (String × String)) (d : String) : ℚ :=
  ((specDocTerms calls d).map fun t => specDocWeight calls d t ^ 2).sum

/-- Spec-side: `score(q,d) = dot(q,d) / (mag(q) * mag(d))`. -/
def specScore (calls : List (String × String)) (q d : String) : ℚ :=
  specDot calls q d / (specMagQuery calls q * specMagDoc calls d)

theorem dfCnt_pairsOf (calls : List (String × String)) (t : String) :
    dfCnt (pairsOf calls) t = corpusCount calls t := by
  induction calls with
  | nil => simp [pairsOf, dfCnt, corpusCount]
  | cons c cs ih =>
    rw [pairsOf_cons, dfCnt, List.map_append, List.count_append,
      corpusCount, List.map_cons, List.sum_cons]
    have hmm : List.map Prod.snd
        (List.map (fun tok => ((c.1 : String), tok)) (tokenize c.2)) =
        tokenize c.2 := by
      simp
    rw [hmm]
    have h2 : List.count t (List.map Prod.snd (pairsOf cs)) =
        corpusCount cs t := ih
    rw [h2, corpusCount]

theorem corpusCount_ne_zero_nullFree {calls : List (String × String)}
    {t : String} (hnf : ∀ c ∈ calls, NullFree c.1 ∧ NullFree c.2)
    (h : corpusCount calls t ≠ 0) : NullFree t := by
  rw [corpusCount] at h
  have hex : ∃ x ∈ calls.map fun c => (tokenize c.2).count t, x ≠ 0 := by
    by_contra hc
    push_neg at hc
    exact h (List.sum_eq_zero hc)
  obtain ⟨x, hx, hx0⟩ := hex
  rw [List.mem_map] at hx
  obtain ⟨c, hc, rfl⟩ := hx
  have ht : t ∈ tokenize c.2 := by
    by_contra htc
    exact hx0 (List.count_eq_zero.mpr htc)
  exact tokenize_nullFree (hnf c hc).2 t ht

theorem occCount_ne_zero_iff (calls : List (String × String)) (d t : String) :
    occCount calls d t ≠ 0 ↔ t ∈ docTokens calls d := by
  rw [occCount, docTokens]
  constructor
  · intro h
    have hex : ∃ x ∈ (calls.filter fun c => c.1 = d).map
        fun c => (tokenize c.2).count t, x ≠ 0 := by
      by_contra hc
      push_neg at hc
      exact h (List.sum_eq_zero hc)
    obtain ⟨x, hx, hx0⟩ := hex
    rw [List.mem_map] at hx
    obtain ⟨c, hc, rfl⟩ := hx
    have ht : t ∈ tokenize c.2 := by
      by_contra htc
      exact hx0 (List.count_eq_zero.mpr htc)
    rw [List.mem_flatMap]
    exact ⟨c, hc, ht⟩
  · intro h hzero
    rw [List.mem_flatMap] at h
    obtain ⟨c, hc, ht⟩ := h
    rw [List.sum_eq_zero_iff] at hzero
    have h0 : (tokenize c.2).count t = 0 :=
      hzero _ (List.mem_map.mpr ⟨c, hc, rfl⟩)
    exact absurd h0 (by
      rw [List.count_eq_zero]
      exact fun hc2 => hc2 ht)

theorem occCount_ne_zero_nullFree {calls : List (String × String)}
    {d t : String} (hnf : ∀ c ∈ calls, NullFree c.1 ∧ NullFree c.2)
    (h : occCount calls d t ≠ 0) : NullFree t := by
  rw [occCount_ne_zero_iff, docTokens, List.mem_flatMap] at h
  obtain ⟨c, hc, ht⟩ := h
  exact tokenize_nullFree (hnf c (List.mem_of_mem_filter hc)).2 t ht

theorem occCount_le_corpusCount (calls : List (String × String))
    (d t : String) : occCount calls d t ≤ corpusCount calls t := by
  rw [← ftCnt_pairsOf, ← dfCnt_pairsOf]
  exact ftCnt_le_dfCnt _ _ _

theorem lookupWeight_map (terms : List String) (w : String → ℚ) (t : String) :
    lookupWeight (terms.map fun t => (t, w t)) t =
      if t ∈ terms then w t else 0 := by
  induction terms with
  | nil => simp [lookupWeight]
  | cons t0 ts ih =>
    by_cases h : t = t0
    · subst h
      simp [lookupWeight]
    · simp only [List.map_cons, lookupWeight, if_neg h, ih]
      exact (if_congr (by simp [List.mem_cons, h]) rfl rfl).symm

theorem sum_if_filter (l : List String) (p : String → Prop) [DecidablePred p]
    (f : String → ℚ) :
    (l.map fun t => if p t then f t else 0).sum =
      ((l.filter fun t => p t).map f).sum := by
  induction l with
  | nil => rfl
  | cons t ts ih =>
    rw [List.map_cons, List.sum_cons, List.filter_cons]
    by_cases h : p t
    · rw [if_pos h, if_pos (decide_eq_true h), List.map_cons, List.sum_cons,
        ih]
    · rw [if_neg h, if_neg (fun hc => h (of_decide_eq_true hc)), zero_add,
        ih]

theorem sum_map_eq_of_mem_iff (l1 l2 : List String) (f : String → ℚ)
    (h1 : l1.Nodup) (h2 : l2.Nodup) (hm : ∀ t, t ∈ l1 ↔ t ∈ l2) :
    (l1.map f).sum = (l2.map f).sum :=
  (((List.perm_ext_iff_of_nodup h1 h2).mpr hm).map f).sum_eq

theorem ftKey_pfx_append (d t : String) :
    ftKey d t =
      (strBytes ftPrefix ++ strBytes d ++ [nullByte]) ++ strBytes t := by
  rw [ftKey, joinWithNullSep]
  simp [List.append_assoc, nullByte]

theorem ft_scan_char {v : VectorIndex} {ps : List (String × String)}
    (hinv : VIInv v ps) {d : String} (hd : NullFree d) :
    ∀ e ∈ v.db.scan (strBytes ftPrefix ++ strBytes d ++ [nullByte]),
      ∃ t, NullFree t ∧ e.1 = ftKey d t ∧
        e.2 = encodeUint32 (ftCnt ps d t) ∧ ftCnt ps d t ≠ 0 := by
  intro e he
  rw [Store.scan, List.mem_filter] at he
  obtain ⟨hmem, hpre⟩ := he
  rw [List.isPrefixOf_iff_prefix] at hpre
  rw [show strBytes ftPrefix ++ strBytes d ++ [nullByte] =
    102 :: 116 :: (strBytes d ++ [nullByte]) from rfl] at hpre
  rcases hinv.keys e hmem with ⟨d', t', hd', ht', hk⟩ | ⟨t', ht', hk⟩ |
    ⟨t', d', ht', hd', hk⟩
  · rw [hk, ftKey_cons] at hpre
    rw [List.cons_prefix_cons] at hpre
    obtain ⟨-, hpre⟩ := hpre
    rw [List.cons_prefix_cons] at hpre
    obtain ⟨-, hpre⟩ := hpre
    have hdd : d = d' := strBytes_inj
      ((sep_prefix_iff (nullFree_not_mem hd) (nullFree_not_mem hd')).mp hpre)
    subst hdd
    obtain ⟨k, val⟩ := e
    simp only at hk
    subst hk
    have hget : v.db.get (ftKey d t') = some val :=
      Store.get_of_mem hinv.sorted hmem
    rw [hinv.ft d t' hd ht', encCount] at hget
    by_cases h0 : ftCnt ps d t' = 0
    · rw [if_pos h0] at hget; cases hget
    · rw [if_neg h0] at hget
      exact ⟨t', ht', rfl, (Option.some.inj hget).symm, h0⟩
  · exfalso
    rw [hk, dfKey_cons, List.cons_prefix_cons] at hpre
    exact absurd hpre.1 (by norm_num)
  · exfalso
    rw [hk, tfKey_cons, List.cons_prefix_cons] at hpre
    exact absurd hpre.1 (by norm_num)

theorem ft_scan_mem {v : VectorIndex} {ps : List (String × String)}
    (hinv : VIInv v ps) {d t : String} (hd : NullFree d) (ht : NullFree t)
    (h0 : ftCnt ps d t ≠ 0) :
    (ftKey d t, encodeUint32 (ftCnt ps d t)) ∈
      v.db.scan (strBytes ftPrefix ++ strBytes d ++ [nullByte]) := by
  rw [Store.scan, List.mem_filter]
  constructor
  · apply Store.mem_of_get
    rw [hinv.ft d t hd ht, encCount, if_neg h0]
  · rw [List.isPrefixOf_iff_prefix, ftKey_pfx_append]
    exact List.prefix_append _ _

theorem documentVectorGo_eq (dfc : DFCache) (plen : Nat) :
    ∀ (es : List (List Nat × List Nat)) (acc : List (String × ℚ)),
      (∀ e ∈ es, e.2.length = 4) →
      documentVectorGo dfc plen es acc = .ok (acc ++ es.map fun e =>
        (bytesToStr (e.1.drop plen),
          (decodeUint32 e.2 : ℚ) /
            (dfGetD dfc (bytesToStr (e.1.drop plen)) : ℚ))) := by
  intro es
  induction es with
  | nil => intro acc _; simp [documentVectorGo]
  | cons e es ih =>
    intro acc hlen
    obtain ⟨k, val⟩ := e
    have h4 : val.length = 4 := hlen (k, val) (List.mem_cons_self _ _)
    simp only [documentVectorGo, h4, if_pos]
    rw [ih _ (fun e' he' => hlen e' (List.mem_cons_of_mem _ he'))]
    simp [List.append_assoc]

theorem queryVector_eq {calls : List (String × String)} {v : VectorIndex}
    (hinv : VIInv v (pairsOf calls)) {q : String}
    (hq32 : ∀ t, (tokenize q).count t < 2 ^ 32) :
    v.queryVector q =
      (specQueryTerms calls q).map fun t =>
        (t, specQueryWeight calls q t) := by
  rw [VectorIndex.queryVector, specQueryTerms]
  have hgen : ∀ l : List String,
      (l.filterMap fun term =>
        match dfGet? v.dfCache term with
        | some df => some (term,
            (((tokenize q).count term % 2 ^ 32 : Nat) : ℚ) / (df : ℚ))
        | none => none) =
      (l.filter fun t => corpusCount calls t ≠ 0).map fun t =>
        (t, specQueryWeight calls q t) := by
    intro l
    induction l with
    | nil => rfl
    | cons t l ih =>
      rw [List.filterMap_cons, List.filter_cons]
      have hc := hinv.cache t
      rw [dfCnt_pairsOf] at hc
      by_cases h0 : corpusCount calls t = 0
      · rw [hc, optCount, if_pos h0,
          if_neg (fun hcc => absurd (of_decide_eq_true hcc)
            (by simp [h0]))]
        exact ih
      · rw [hc, optCount, if_neg h0, if_pos (decide_eq_true h0),
          List.map_cons]
        simp only []
        rw [Nat.mod_eq_of_lt (hq32 t), ih]
        rfl
  exact hgen _

theorem documentVector_char {calls : List (String × String)}
    {v : VectorIndex} (hinv : VIInv v (pairsOf calls)) {d : String}
    (hd : NullFree d) :
    ∃ terms : List String, terms.Nodup ∧
      (∀ t, t ∈ terms ↔ (NullFree t ∧ occCount calls d t ≠ 0)) ∧
      v.documentVector d =
        .ok (terms.map fun t => (t, specDocWeight calls d t)) := by
  have hchar := ft_scan_char hinv hd
  have hterm : ∀ t : String, bytesToStr ((ftKey d t).drop
      (strBytes ftPrefix ++ strBytes d ++ [nullByte]).length) = t := by
    intro t
    rw [ftKey_pfx_append, List.drop_left, bytesToStr_strBytes]
  have hlen : ∀ e ∈ v.db.scan (strBytes ftPrefix ++ strBytes d ++ [nullByte]),
      e.2.length = 4 := by
    intro e he
    obtain ⟨t, _, _, hv2, _⟩ := hchar e he
    rw [hv2]
    exact length_encodeUint32 _
  refine ⟨(v.db.scan (strBytes ftPrefix ++ strBytes d ++ [nullByte])).map
    (fun e => bytesToStr (e.1.drop
      (strBytes ftPrefix ++ strBytes d ++ [nullByte]).length)), ?_, ?_, ?_⟩
  · have hkeys := scan_keys_nodup hinv.sorted
      (strBytes ftPrefix ++ strBytes d ++ [nullByte])
    have hrw : (v.db.scan (strBytes ftPrefix ++ strBytes d ++
        [nullByte])).map (fun e => bytesToStr (e.1.drop
          (strBytes ftPrefix ++ strBytes d ++ [nullByte]).length)) =
        ((v.db.scan (strBytes ftPrefix ++ strBytes d ++
          [nullByte])).map Prod.fst).map (fun k => bytesToStr (k.drop
            (strBytes ftPrefix ++ strBytes d ++ [nullByte]).length)) := by
      rw [List.map_map]
      rfl
    rw [hrw]
    apply hkeys.map_on
    intro k1 hk1 k2 hk2 heq
    rw [List.mem_map] at hk1 hk2
    obtain ⟨e1, he1, rfl⟩ := hk1
    obtain ⟨e2, he2, rfl⟩ := hk2
    obtain ⟨t1, ht1, hk1', _, _⟩ := hchar e1 he1
    obtain ⟨t2, ht2, hk2', _, _⟩ := hchar e2 he2
    rw [hk1', hk2', hterm t1, hterm t2] at heq
    rw [hk1', hk2', heq]
  · intro t
    constructor
    · intro ht
      rw [List.mem_map] at ht
      obtain ⟨e, he, rfl⟩ := ht
      obtain ⟨t', ht', hk, _, h0⟩ := hchar e he
      rw [hk, hterm t']
      rw [ftCnt_pairsOf] at h0
      exact ⟨ht', h0⟩
    · rintro ⟨hnft, h0⟩
      rw [← ftCnt_pairsOf] at h0
      have hm := ft_scan_mem hinv hd hnft h0
      rw [List.mem_map]
      exact ⟨_, hm, hterm t⟩
  · simp only [VectorIndex.documentVector]
    rw [documentVectorGo_eq _ _ _ [] hlen, List.nil_append]
    apply congrArg
    rw [List.map_map]
    apply List.map_congr_left
    intro e he
    obtain ⟨t', ht', hk, hv2, h0⟩ := hchar e he
    show (bytesToStr (e.1.drop
        (strBytes ftPrefix ++ strBytes d ++ [nullByte]).length),
      (decodeUint32 e.2 : ℚ) /
        (dfGetD v.dfCache (bytesToStr (e.1.drop
          (strBytes ftPrefix ++ strBytes d ++ [nullByte]).length)) : ℚ)) =
      (bytesToStr (e.1.drop
        (strBytes ftPrefix ++ strBytes d ++ [nullByte]).length),
        specDocWeight calls d (bytesToStr (e.1.drop
          (strBytes ftPrefix ++ strBytes d ++ [nullByte]).length)))
    rw [hk, hterm t', hv2]
    have hlt : ftCnt (pairsOf calls) d t' < 2 ^ 32 :=
      lt_of_le_of_lt (ftCnt_le_dfCnt _ _ _) (lt_of_le_of_lt
        (le_refl _) (hinv.dfLt t'))
    rw [decodeUint32_encodeUint32 _ hlt]
    have hcache := hinv.cache t'
    rw [dfCnt_pairsOf] at hcache
    rw [dfGetD, hcache, getD_optCount, ftCnt_pairsOf]
    rfl

/-- C2: on any index reached by successful `Add` calls from a fresh index,
for every query q and candidate document d, the similarity score that
`Search` ranks d by equals `dot(q,d) / (mag(q) * mag(d))` with the query
weight `qtf(t) / CorpusCount(t)` (cache-absent terms omitted), the document
weight `FT(d,t) / CorpusCount(t)`, dot summed over shared terms, and mag
the sum of squared weights with no square root. -/
theorem c2_similarity_formula (calls : List (String × String))
    (v : VectorIndex) (hnf : ∀ c ∈ calls, NullFree c.1 ∧ NullFree c.2)
    (h : addAll ⟨[], []⟩ calls = .ok v) (q d : String) (hd : NullFree d)
    (hq32 : ∀ t, (tokenize q).count t < 2 ^ 32) :
    v.queryDocumentSimilarity q d = .ok (specScore calls q d) := by
  have hinv := viinv_addAll hnf h
  obtain ⟨terms, hnd, hmem, hdv⟩ := documentVector_char hinv hd
  have hqv := queryVector_eq hinv hq32
  have hmagq : magnitude ((specQueryTerms calls q).map fun t =>
      (t, specQueryWeight calls q t)) = specMagQuery calls q := by
    rw [magnitude, List.map_map, specMagQuery]
    exact congrArg List.sum (List.map_congr_left fun t _ => rfl)
  have hmagd : magnitude (terms.map fun t =>
      (t, specDocWeight calls d t)) = specMagDoc calls d := by
    rw [magnitude, List.map_map]
    have h1 : (terms.map ((fun e : String × ℚ => e.2 ^ 2) ∘ fun t =>
        (t, specDocWeight calls d t))).sum =
        (terms.map fun t => specDocWeight calls d t ^ 2).sum :=
      congrArg List.sum (List.map_congr_left fun t _ => rfl)
    rw [h1, specMagDoc]
    apply sum_map_eq_of_mem_iff _ _ _ hnd
      ((List.nodup_dedup _).filter _)
    intro t
    rw [hmem t]
    rw [List.mem_filter, List.mem_dedup, ← occCount_ne_zero_iff]
    constructor
    · rintro ⟨h1, h2⟩
      exact ⟨h2, decide_eq_true h2⟩
    · rintro ⟨h1, h2⟩
      exact ⟨occCount_ne_zero_nullFree hnf h1, h1⟩
  have hdot : dotProduct ((specQueryTerms calls q).map fun t =>
      (t, specQueryWeight calls q t))
      (terms.map fun t => (t, specDocWeight calls d t)) =
      specDot calls q d := by
    rw [dotProduct, List.map_map]
    have hpt : ∀ t ∈ specQueryTerms calls q,
        ((fun e : String × ℚ => e.2 * lookupWeight
          (terms.map fun t => (t, specDocWeight calls d t)) e.1) ∘
            fun t => (t, specQueryWeight calls q t)) t =
        (if occCount calls d t ≠ 0 then
          specQueryWeight calls q t * specDocWeight calls d t else 0) := by
      intro t htq
      have hnft : NullFree t := by
        rw [specQueryTerms, List.mem_filter] at htq
        exact corpusCount_ne_zero_nullFree hnf (of_decide_eq_true htq.2)
      show specQueryWeight calls q t * lookupWeight
        (terms.map fun t => (t, specDocWeight calls d t)) t = _
      rw [lookupWeight_map]
      have hiff : (t ∈ terms) ↔ (occCount calls d t ≠ 0) :=
        (hmem t).trans ⟨And.right, fun h2 => ⟨hnft, h2⟩⟩
      rw [if_congr hiff rfl rfl, mul_ite, mul_zero]
    rw [List.map_congr_left hpt, sum_if_filter, specDot, specSharedTerms]
  simp only [VectorIndex.queryDocumentSimilarity, hdv, hqv]
  rw [hdot, hmagq, hmagd]
  rfl

/-- C2 witness at the single call `Add "a" "x"`, query `"x"`, candidate
`"a"`. -/
theorem c2_witness :
    (∀ c ∈ ([("a", "x")] : List (String × String)),
      NullFree c.1 ∧ NullFree c.2) ∧
    addAll ⟨[], []⟩ [("a", "x")] = .ok sampleVI ∧ NullFree "a" ∧
    (∀ t, (tokenize "x").count t < 2 ^ 32) ∧
    sampleVI.queryDocumentSimilarity "x" "a" =
      .ok (specScore [("a", "x")] "x" "a") :=
  ⟨by decide, by decide, by decide,
    fun t => lt_of_le_of_lt (List.count_le_length t (tokenize "x"))
      (by decide),
    c2_similarity_formula [("a", "x")] sampleVI (by decide) (by decide)
      "x" "a" (by decide)
      (fun t => lt_of_le_of_lt (List.count_le_length t (tokenize "x"))
        (by decide))⟩

end Retrieval
